import Mathlib

/-!
# Verification of the ae event-loop reactor and anet socket helpers

This development embeds the reactor described by the repository (the `ae`
event loop of redis-6.2.14, whose public structures and constants are given
in src/redis-6.2.14/src/ae.h) together with the two anet.c functions the
claims mention.  The implementation file ae.c is not part of the sources,
only the header ae.h; therefore the event-loop operations below are
modelled from the specification, over the data model that ae.h declares.
The anet.c functions are embedded directly from the source.
-/

/-! ## Constants from ae.h -/

/-- AE_OK from ae.h line 38. -/
def AE_OK : Int := 0

/-- AE_ERR from ae.h line 39. -/
def AE_ERR : Int := -1

/-- AE_NONE from ae.h line 41: no events registered. -/
def AE_NONE : Nat := 0

/-- AE_READABLE from ae.h line 42: fire when descriptor is readable. -/
def AE_READABLE : Nat := 1

/-- AE_WRITABLE from ae.h line 43: fire when descriptor is writable. -/
def AE_WRITABLE : Nat := 2

/-- AE_BARRIER from ae.h line 44: with WRITABLE, never fire the write event
if the READABLE event already fired in the same event loop iteration. -/
def AE_BARRIER : Nat := 4

/-- AE_NOMORE from ae.h line 57: sentinel returned by a time callback that
declines rescheduling. -/
def AE_NOMORE : Int := -1

/-- Error taxonomy of the specification (section 7). -/
inductive AeError where
  | CapacityExceeded
  | DescriptorOutOfRange
  | NotFound
deriving DecidableEq, Repr

/-! ## File event registry data model (aeFileEvent, ae.h lines 76-85) -/

/-- aeFileEvent from ae.h: interest mask, read handler, write handler and
opaque client data.  Handlers are modelled as opaque numeric references,
present exactly while the corresponding direction is registered. -/
structure aeFileEvent where
  mask : Nat
  rfileProc : Option Nat
  wfileProc : Option Nat
  clientData : Nat
deriving DecidableEq, Repr

/-- A slot that was never registered or was fully deregistered. -/
def emptyFileEvent : aeFileEvent :=
  { mask := AE_NONE, rfileProc := none, wfileProc := none, clientData := 0 }

/-- aeFiredEvent from ae.h lines 110-115: an ephemeral descriptor plus the
ready mask the backend reported for it. -/
structure aeFiredEvent where
  fd : Nat
  mask : Nat
deriving DecidableEq, Repr

/-- Observable callback invocations of one file-event dispatch pass. -/
inductive FEvt where
  | readCall (fd : Nat) (proc : Nat)
  | writeCall (fd : Nat) (proc : Nat)
deriving DecidableEq, Repr

/-! ## Time event data model (aeTimeEvent, ae.h lines 90-107) -/

/-- The behaviour of a time-event callback, defunctionalised.  A callback
can plainly return a value, cancel a timer by id before returning, or
schedule a fresh timer before returning.  The return value is the
reschedule delay, or the AE_NOMORE sentinel (any negative value declines
rescheduling). -/
inductive TimerAction where
  | ret (retval : Int)
  | cancelThen (tid : Nat) (retval : Int)
  | schedThen (delay : Nat) (act : TimerAction) (fin : Option Nat) (retval : Int)
deriving DecidableEq, Repr

/-- aeTimeEvent from ae.h: identifier, absolute due time on the monotonic
clock (monotime when), callback, optional finalizer, client data, and the
refcount that protects an entry from being freed while it is being
visited.  The field deleted models the id = AE_DELETED_EVENT_ID marking
used for lazy removal. -/
structure aeTimeEvent where
  id : Nat
  deleted : Bool
  when : Nat
  timeProc : TimerAction
  finalizerProc : Option Nat
  clientData : Nat
  refcount : Nat
deriving DecidableEq, Repr

/-- Observable events of one time-event dispatch pass: a callback firing
(recording the due time the entry had when it fired) and a finalizer
invocation. -/
inductive TEvt where
  | fired (id : Nat) (whenDue : Nat)
  | finalized (id : Nat) (fin : Nat)
deriving DecidableEq, Repr

/-! ## Event loop state (aeEventLoop, ae.h lines 121-146) -/

/-- aeEventLoop from ae.h: the next timer id counter, the dense descriptor
table (events), the mirrored backend interest table (modelling apidata of
the polling backend, one interest mask per descriptor), the time event
list and the stop flag.  The setsize field of the C struct is the length
of the events table. -/
structure aeEventLoop where
  timeEventNextId : Nat
  events : List aeFileEvent
  apievents : List Nat
  timeEventHead : List aeTimeEvent
  stop : Bool
deriving DecidableEq, Repr

/-- setsize: max number of file descriptors tracked (ae.h line 126). -/
def aeEventLoop.setsize (l : aeEventLoop) : Nat := l.events.length

/-- Modelled from the spec: ae.c is missing from the sources, so
aeCreateEventLoop is modelled from section 3 (created with an initial
descriptor-table capacity, no registrations, next timer id starts fresh). -/
def aeCreateEventLoop (n : Nat) : aeEventLoop :=
  { timeEventNextId := 0
    events := List.replicate n emptyFileEvent
    apievents := List.replicate n 0
    timeEventHead := []
    stop := false }

/-! ## File event registry operations (spec section 4.1) -/

/-- Clear the bits of m inside a 3-bit interest mask x.  This is the
bitwise and-not of C restricted to the mask domain
AE_READABLE, AE_WRITABLE, AE_BARRIER. -/
def maskClear (x m : Nat) : Nat := x &&& (7 ^^^ (m &&& 7))

/-- Modelled from the spec: the polling backend contract add_interest of
section 4.3, mirroring the registry state.  The backend tracks only the
read and write directions. -/
def aeApiAddEvent (api : List Nat) (fd m : Nat) : List Nat :=
  api.set fd ((api.getD fd 0) ||| (m &&& (AE_READABLE ||| AE_WRITABLE)))

/-- Modelled from the spec: the polling backend contract remove_interest of
section 4.3, mirroring the registry state. -/
def aeApiDelEvent (api : List Nat) (fd m : Nat) : List Nat :=
  api.set fd ((api.getD fd 0) &&& (3 ^^^ (m &&& 3)))

/-- Modelled from the spec: ae.c is missing from the sources, so
aeCreateFileEvent (declared ae.h line 152) is modelled from section 4.1:
it fails with CapacityExceeded if fd is at or beyond the current table
capacity; otherwise it upgrades the interest mask, installs the handler
for each requested direction, replaces the payload, and mirrors the
interest into the backend.  The mask domain is the three header bits. -/
def aeCreateFileEvent (l : aeEventLoop) (fd m proc data : Nat) :
    Except AeError aeEventLoop :=
  if h : fd < l.events.length then
    let fe := l.events.get ⟨fd, h⟩
    let fe' : aeFileEvent :=
      { mask := fe.mask ||| (m &&& 7)
        rfileProc := if m &&& AE_READABLE ≠ 0 then some proc else fe.rfileProc
        wfileProc := if m &&& AE_WRITABLE ≠ 0 then some proc else fe.wfileProc
        clientData := data }
    .ok { l with events := l.events.set fd fe'
                 apievents := aeApiAddEvent l.apievents fd m }
  else .error .CapacityExceeded

/-- Modelled from the spec: ae.c is missing from the sources, so
aeDeleteFileEvent (declared ae.h line 154) is modelled from section 4.1:
deregistering is a no-op, not an error, when not registered; it clears
only the requested mask bits and their handlers, and removes the backend
interest for the cleared directions. -/
def aeDeleteFileEvent (l : aeEventLoop) (fd m : Nat) : aeEventLoop :=
  if h : fd < l.events.length then
    let fe := l.events.get ⟨fd, h⟩
    if fe.mask = AE_NONE then l
    else
      let fe' : aeFileEvent :=
        { mask := maskClear fe.mask m
          rfileProc := if m &&& AE_READABLE ≠ 0 then none else fe.rfileProc
          wfileProc := if m &&& AE_WRITABLE ≠ 0 then none else fe.wfileProc
          clientData := fe.clientData }
      { l with events := l.events.set fd fe'
               apievents := aeApiDelEvent l.apievents fd m }
  else l

/-- aeGetFileEvents (declared ae.h line 155): pure lookup of the interest
mask, AE_NONE when never registered or out of range. -/
def aeGetFileEvents (l : aeEventLoop) (fd : Nat) : Nat :=
  (l.events.getD fd emptyFileEvent).mask

/-- Modelled from the spec: ae.c is missing from the sources, so
aeResizeSetSize (declared ae.h line 167) is modelled from section 4.1:
growing simply extends the table; shrinking must verify no
currently-interested descriptor exceeds the new bound, else it fails with
DescriptorOutOfRange and leaves state unchanged. -/
def aeResizeSetSize (l : aeEventLoop) (n : Nat) : Except AeError aeEventLoop :=
  if (l.events.drop n).any (fun fe => fe.mask ≠ AE_NONE) then
    .error .DescriptorOutOfRange
  else
    .ok { l with
          events :=
            if n ≤ l.events.length then l.events.take n
            else l.events ++ List.replicate (n - l.events.length) emptyFileEvent
          apievents :=
            if n ≤ l.apievents.length then l.apievents.take n
            else l.apievents ++ List.replicate (n - l.apievents.length) 0 }

/-! ## File event dispatch (spec section 4.4, step 4) -/

/-- Modelled from the spec: ae.c is missing from the sources, so the
per-descriptor dispatch step is modelled from section 4.4 step 4 and the
AE_BARRIER comment of ae.h lines 44-48: the normal order is read before
write, and when the registration mask includes AE_BARRIER and the read
callback already fired in this pass, the write callback is not invoked in
this pass at all. -/
def processOneFired (fe : aeFileEvent) (ready fd : Nat) : List FEvt :=
  let fireRead := fe.mask &&& ready &&& AE_READABLE ≠ 0
  let fireWrite := fe.mask &&& ready &&& AE_WRITABLE ≠ 0 ∧
      ¬(fe.mask &&& AE_BARRIER ≠ 0 ∧ fireRead)
  (if fireRead then [FEvt.readCall fd (fe.rfileProc.getD 0)] else []) ++
  (if fireWrite then [FEvt.writeCall fd (fe.wfileProc.getD 0)] else [])

/-- Modelled from the spec: one file-event dispatch pass over the fired
scratch buffer, in backend-reported order, skipping descriptors whose
current interest is AE_NONE (section 4.4 step 4). -/
def aeProcessFileEvents (l : aeEventLoop) (fired : List aeFiredEvent) : List FEvt :=
  (fired.map (fun f =>
    let slot := l.events.getD f.fd emptyFileEvent
    if slot.mask = AE_NONE then [] else processOneFired slot f.mask f.fd)).flatten

/-! ## Time event operations (spec section 4.2) -/

/-- Modelled from the spec: ae.c is missing from the sources, so the search
step of aeDeleteTimeEvent (declared ae.h line 159) is modelled from
section 4.2: scanning the list from the head for a live entry with the
requested id; if its refcount is zero the entry is unlinked at once and
its finalizer fires, otherwise the entry is only marked for lazy removal
(the finalizer then fires at end of visit). -/
def cancelScan : List aeTimeEvent → Nat → Option (List aeTimeEvent × List TEvt)
  | [], _ => none
  | te :: ts, tid =>
    if te.id = tid ∧ te.deleted = false then
      if te.refcount = 0 then
        some (ts, match te.finalizerProc with
                  | some f => [TEvt.finalized te.id f]
                  | none => [])
      else some ({ te with deleted := true } :: ts, [])
    else
      match cancelScan ts tid with
      | none => none
      | some (ts', evs) => some (te :: ts', evs)

/-- Modelled from the spec: cancel by id fails with NotFound if no live
entry has that id (section 4.2). -/
def aeDeleteTimeEvent (l : aeEventLoop) (id : Nat) :
    Except AeError (aeEventLoop × List TEvt) :=
  match cancelScan l.timeEventHead id with
  | none => .error .NotFound
  | some (ts, evs) => .ok ({ l with timeEventHead := ts }, evs)

/-- Modelled from the spec: ae.c is missing from the sources, so
aeCreateTimeEvent (declared ae.h line 156) is modelled from sections 3 and
4.2: the new entry takes the current timeEventNextId (which is then
incremented), its due time is the current monotonic now plus the delay,
and it is inserted at the head of the list. -/
def aeCreateTimeEvent (l : aeEventLoop) (now ms : Nat) (act : TimerAction)
    (fin : Option Nat) (data : Nat) : Nat × aeEventLoop :=
  let id := l.timeEventNextId
  (id, { l with
         timeEventNextId := id + 1
         timeEventHead :=
           { id := id, deleted := false, when := now + ms, timeProc := act
             finalizerProc := fin, clientData := data, refcount := 0 }
           :: l.timeEventHead })

/-- Result of interpreting one time-callback invocation: the return value,
the updated entry under visit, the updated list segments before and after
the cursor, the updated next id, and the emitted events. -/
structure VisitResult where
  retval : Int
  cur : aeTimeEvent
  done : List aeTimeEvent
  rest : List aeTimeEvent
  nextId : Nat
  evs : List TEvt

/-- Modelled from the spec: the effect of a time callback during its visit.
The full list at this moment is done, then the visited entry cur (whose
refcount was incremented before the call), then rest.  Cancelling scans in
list order; the visited entry itself has nonzero refcount so cancelling it
only marks it for lazy removal (section 4.2).  Scheduling inserts the new
entry at the head of the list, which is the head of done. -/
def applyAction (act : TimerAction) (now : Nat) (cur : aeTimeEvent)
    (done rest : List aeTimeEvent) (nid : Nat) : VisitResult :=
  match act with
  | .ret v => ⟨v, cur, done, rest, nid, []⟩
  | .schedThen delay a fin v =>
      ⟨v, cur,
        { id := nid, deleted := false, when := now + delay, timeProc := a
          finalizerProc := fin, clientData := 0, refcount := 0 } :: done,
        rest, nid + 1, []⟩
  | .cancelThen tid v =>
      match cancelScan done tid with
      | some (done', evs) => ⟨v, cur, done', rest, nid, evs⟩
      | none =>
        if cur.id = tid ∧ cur.deleted = false then
          ⟨v, { cur with deleted := true }, done, rest, nid, []⟩
        else
          match cancelScan rest tid with
          | some (rest', evs) => ⟨v, cur, done, rest', nid, evs⟩
          | none => ⟨v, cur, done, rest, nid, []⟩

/-- Modelled from the spec: ae.c is missing from the sources, so the time
event dispatch pass of aeProcessEvents (declared ae.h line 160) is
modelled from section 4.2: now is sampled once at the start of the pass,
only entries created before the pass began may fire (their id is below
maxIdEx, the timeEventNextId sampled at pass start), the refcount of the
visited entry is incremented around its callback, an entry marked deleted
during its own visit is unlinked and finalized at end of visit, a callback
returning the AE_NOMORE sentinel has its entry removed and finalized, and
a nonnegative return reschedules the entry relative to now.  The fuel
argument bounds the traversal length; it is instantiated with the list
length, which suffices because the segment after the cursor never grows. -/
def runTimers (now maxIdEx : Nat) :
    Nat → List aeTimeEvent → List aeTimeEvent → Nat →
    List aeTimeEvent × Nat × List TEvt
  | 0, done, rest, nid => (done ++ rest, nid, [])
  | _ + 1, done, [], nid => (done, nid, [])
  | fuel + 1, done, te :: rest, nid =>
    if te.deleted then
      if te.refcount ≠ 0 then
        runTimers now maxIdEx fuel (done ++ [te]) rest nid
      else
        let evs := match te.finalizerProc with
                   | some f => [TEvt.finalized te.id f]
                   | none => []
        let r := runTimers now maxIdEx fuel done rest nid
        (r.1, r.2.1, evs ++ r.2.2)
    else if maxIdEx ≤ te.id then
      runTimers now maxIdEx fuel (done ++ [te]) rest nid
    else if te.when ≤ now then
      let cur0 := { te with refcount := te.refcount + 1 }
      let a := applyAction cur0.timeProc now cur0 done rest nid
      let cur1 := { a.cur with refcount := a.cur.refcount - 1 }
      if cur1.deleted || decide (a.retval < 0) then
        let fevs := match cur1.finalizerProc with
                    | some f => [TEvt.finalized cur1.id f]
                    | none => []
        let r := runTimers now maxIdEx fuel a.done a.rest a.nextId
        (r.1, r.2.1, TEvt.fired te.id te.when :: (a.evs ++ fevs ++ r.2.2))
      else
        let cur2 := { cur1 with when := now + a.retval.toNat }
        let r := runTimers now maxIdEx fuel (a.done ++ [cur2]) a.rest a.nextId
        (r.1, r.2.1, TEvt.fired te.id te.when :: (a.evs ++ r.2.2))
    else
      runTimers now maxIdEx fuel (done ++ [te]) rest nid

/-- Modelled from the spec: one time-event dispatch pass over the loop,
with now sampled once at entry and the only-preexisting-timers bound
taken from timeEventNextId at entry. -/
def processTimeEvents (l : aeEventLoop) (now : Nat) :
    aeEventLoop × List TEvt :=
  let r := runTimers now l.timeEventNextId l.timeEventHead.length
             [] l.timeEventHead l.timeEventNextId
  ({ l with timeEventHead := r.1, timeEventNextId := r.2.1 }, r.2.2)

/-! ## Clock basis (spec section 3, TimeEventRegistration) -/

/-- A system clock environment: the monotonic reading and the wall-clock
reading, the latter subject to administrative adjustment. -/
structure Clocks where
  mono : Nat
  wall : Int
deriving DecidableEq, Repr

/-- Modelled from the spec: scheduling reads only the monotonic clock
(section 3: absolute due-time on a monotonic clock basis, not wall-clock). -/
def aeCreateTimeEventClock (l : aeEventLoop) (c : Clocks) (ms : Nat)
    (act : TimerAction) (fin : Option Nat) (data : Nat) : Nat × aeEventLoop :=
  aeCreateTimeEvent l c.mono ms act fin data

/-- Modelled from the spec: the dispatch pass reads only the monotonic
clock when comparing due times. -/
def processTimeEventsClock (l : aeEventLoop) (c : Clocks) :
    aeEventLoop × List TEvt :=
  processTimeEvents l c.mono

/-! ## anet.c embeddings (src/redis-6.2.14/src/anet.c) -/

/-- ANET_OK, declared in anet.h with value 0. -/
def ANET_OK : Int := 0

/-- ANET_ERR, declared in anet.h with value -1. -/
def ANET_ERR : Int := -1

/-- The Linux O_NONBLOCK file status flag, 0x800. -/
def O_NONBLOCK : Nat := 2048

/-- Bitwise complement of O_NONBLOCK in a 32-bit flags word. -/
def NOT_O_NONBLOCK : Nat := 4294965247

/-- Flag-reading and flag-writing fcntl calls issued by anetSetBlock, as an
observable trace. -/
inductive FcntlCall where
  | getfl
  | setfl (flags : Nat)
deriving DecidableEq, Repr

/-- anetSetBlock from anet.c lines 67-105.  The descriptor is modelled by
its file status flags word, none when fcntl(F_GETFL) fails.  The function
reads the flags; if the O_NONBLOCK bit already matches the requested mode
it returns ANET_OK without issuing F_SETFL; otherwise it sets or clears
the bit and writes the flags back.  The result carries the return value,
the final flags state and the trace of fcntl calls issued. -/
def anetSetBlock (st : Option Nat) (non_block : Nat) :
    Int × Option Nat × List FcntlCall :=
  match st with
  | none => (ANET_ERR, none, [FcntlCall.getfl])
  | some flags =>
    if ((flags &&& O_NONBLOCK) != 0) = (non_block != 0) then
      (ANET_OK, some flags, [FcntlCall.getfl])
    else
      let flags' := if non_block != 0 then flags ||| O_NONBLOCK
                    else flags &&& NOT_O_NONBLOCK
      (ANET_OK, some flags', [FcntlCall.getfl, FcntlCall.setfl flags'])

/-- The format string selection of anetFormatAddr from anet.c lines
656-659: if the ip contains a colon (IPv6) the ip is surrounded by square
brackets; ip and port are separated by a colon. -/
def anetFormatAddrStr (ip : List Char) (port : Int) : List Char :=
  if ip.contains ':' then '[' :: ip ++ (']' :: ':' :: (toString port).data)
  else ip ++ (':' :: (toString port).data)

/-- snprintf as used by anetFormatAddr: returns the length of the full
formatted string, and stores at most buf_len bytes, namely up to
buf_len - 1 characters plus the terminating NUL. -/
def snprintfModel (buf_len : Nat) (s : List Char) : Int × List Char :=
  ((s.length : Int), if buf_len = 0 then [] else s.take (buf_len - 1))

/-- anetFormatAddr from anet.c lines 656-659: snprintf of the selected
format. -/
def anetFormatAddr (buf_len : Nat) (ip : List Char) (port : Int) :
    Int × List Char :=
  snprintfModel buf_len (anetFormatAddrStr ip port)

/-! ## Derived notions used by the statements -/

/-- The identifiers of a time event list, in list order. -/
def tlIds (ts : List aeTimeEvent) : List Nat := ts.map (·.id)

/-- The ids of the fired callback invocations of a trace, in order. -/
def firedIds (tr : List TEvt) : List Nat :=
  tr.filterMap fun e => match e with
    | .fired i _ => some i
    | .finalized _ _ => none

/-- The ids whose finalizer was invoked, in order. -/
def finIds (tr : List TEvt) : List Nat :=
  tr.filterMap fun e => match e with
    | .fired _ _ => none
    | .finalized i _ => some i

/-- Well-formedness of a time event list against a next-id bound: all ids
are below the bound and pairwise distinct, and outside a dispatch pass
every entry has refcount zero and is not marked deleted. -/
def tlWF (ts : List aeTimeEvent) (nid : Nat) : Prop :=
  (tlIds ts).Nodup ∧
  ∀ te ∈ ts, te.id < nid ∧ te.refcount = 0 ∧ te.deleted = false

/-- Well-formedness of the timer side of an event loop. -/
def timerWF (l : aeEventLoop) : Prop :=
  tlWF l.timeEventHead l.timeEventNextId

/-- A register or deregister call on one descriptor (spec section 4.1). -/
inductive FOp where
  | reg (m proc data : Nat)
  | dereg (m : Nat)
deriving DecidableEq, Repr

/-- Apply one register or deregister call at a descriptor; a failed
registration leaves the loop unchanged (spec section 4.4: capacity errors
change no loop state). -/
def applyFOp (l : aeEventLoop) (fd : Nat) : FOp → aeEventLoop
  | .reg m proc data =>
      match aeCreateFileEvent l fd m proc data with
      | .ok l' => l'
      | .error _ => l
  | .dereg m => aeDeleteFileEvent l fd m

/-- Apply a sequence of register and deregister calls at a descriptor. -/
def applyFOps (l : aeEventLoop) (fd : Nat) (ops : List FOp) : aeEventLoop :=
  ops.foldl (fun acc op => applyFOp acc fd op) l

/-- The specified interest mask of a call sequence: the bitwise union of
the directions registered minus the directions deregistered, accumulated
in call order (spec section 8, first property). -/
def maskStep (acc : Nat) : FOp → Nat
  | .reg m _ _ => acc ||| (m &&& 7)
  | .dereg m => acc &&& (7 ^^^ (m &&& 7))

/-- The interest mask the specification predicts for a call sequence
starting from an unregistered descriptor. -/
def maskFold (ops : List FOp) : Nat := ops.foldl maskStep 0

/-- The backend interest mask recorded for a descriptor. -/
def apiMask (l : aeEventLoop) (fd : Nat) : Nat := l.apievents.getD fd 0

/-- Event loop states reachable through the public interface (spec
section 6). -/
inductive Reachable : aeEventLoop → Prop
  | init (n : Nat) : Reachable (aeCreateEventLoop n)
  | sched {l : aeEventLoop} (now ms : Nat) (act : TimerAction)
      (fin : Option Nat) (data : Nat) :
      Reachable l → Reachable (aeCreateTimeEvent l now ms act fin data).2
  | cancel {l l' : aeEventLoop} {id : Nat} {evs : List TEvt} :
      Reachable l → aeDeleteTimeEvent l id = .ok (l', evs) → Reachable l'
  | timers {l : aeEventLoop} (now : Nat) :
      Reachable l → Reachable (processTimeEvents l now).1
  | fileReg {l l' : aeEventLoop} {fd m proc data : Nat} :
      Reachable l → aeCreateFileEvent l fd m proc data = .ok l' → Reachable l'
  | fileDel {l : aeEventLoop} (fd m : Nat) :
      Reachable l → Reachable (aeDeleteFileEvent l fd m)
  | resize {l l' : aeEventLoop} {n : Nat} :
      Reachable l → aeResizeSetSize l n = .ok l' → Reachable l'

/-- Well-formedness of one descriptor slot: the backend table matches the
registry table in length, the descriptor is within capacity, the interest
mask lives in the three header bits, the backend interest mirrors the
read and write bits of the registry mask, and a handler is present only
while its direction is registered. -/
def fslotWF (l : aeEventLoop) (fd : Nat) : Prop :=
  l.apievents.length = l.events.length ∧
  fd < l.events.length ∧
  aeGetFileEvents l fd < 8 ∧
  apiMask l fd = aeGetFileEvents l fd &&& 3 ∧
  (aeGetFileEvents l fd &&& AE_READABLE = 0 →
    (l.events.getD fd emptyFileEvent).rfileProc = none) ∧
  (aeGetFileEvents l fd &&& AE_WRITABLE = 0 →
    (l.events.getD fd emptyFileEvent).wfileProc = none)

/-! ## Shared helper lemmas -/

lemma list_set_self {α : Type} (l : List α) (i : Nat) (h : i < l.length) :
    l.set i l[i] = l := by
  apply List.ext_getElem
  · simp
  · intro n h1 h2
    rw [List.getElem_set]
    split
    · subst_vars; rfl
    · rfl

lemma lor_and_self (x y : Nat) : (x ||| y) &&& y = y := by
  apply Nat.eq_of_testBit_eq
  intro i
  simp only [Nat.testBit_and, Nat.testBit_or]
  cases x.testBit i <;> cases y.testBit i <;> rfl

lemma land_left_comm (x y z : Nat) : x &&& y &&& z = x &&& z &&& y := by
  apply Nat.eq_of_testBit_eq
  intro i
  simp only [Nat.testBit_and]
  cases x.testBit i <;> cases y.testBit i <;> cases z.testBit i <;> rfl

lemma and7_lt8 (m : Nat) : m &&& 7 < 8 :=
  Nat.lt_succ_of_le Nat.and_le_right

lemma and3_lt8 (m : Nat) : m &&& 3 < 8 :=
  Nat.lt_of_le_of_lt Nat.and_le_right (by omega)

lemma lor_lt8 {x y : Nat} (hx : x < 8) (hy : y < 8) : x ||| y < 8 := by
  interval_cases x <;> interval_cases y <;> decide

lemma and_le_lt8 {x : Nat} (hx : x < 8) (m : Nat) : x &&& m < 8 :=
  Nat.lt_of_le_of_lt Nat.and_le_left hx

lemma lor_and3 {x y : Nat} (hx : x < 8) (hy : y < 8) :
    (x ||| y) &&& 3 = (x &&& 3) ||| (y &&& 3) := by
  interval_cases x <;> interval_cases y <;> decide

lemma clear_and3 {x y : Nat} (hx : x < 8) (hy : y < 8) :
    (x &&& (7 ^^^ y)) &&& 3 = (x &&& 3) &&& (3 ^^^ (y &&& 3)) := by
  interval_cases x <;> interval_cases y <;> decide

lemma and7_and3 (m : Nat) : (m &&& 7) &&& 3 = m &&& 3 := by
  rw [Nat.land_assoc, show (7 : Nat) &&& 3 = 3 from by decide]

/-! ## C7: registration capacity errors -/

/-- C7: for every fd and direction, registering a file event fails with
CapacityExceeded exactly when fd is at or beyond the current
descriptor-table capacity; for fd below capacity the registration
succeeds.  In the functional embedding a failing call returns only the
error and no loop state, so no loop state changes on failure. -/
theorem c7_register_capacity (l : aeEventLoop) (fd m proc data : Nat) :
    (aeCreateFileEvent l fd m proc data = .error .CapacityExceeded ↔
      l.setsize ≤ fd) ∧
    (fd < l.setsize → ∃ l', aeCreateFileEvent l fd m proc data = .ok l') := by
  unfold aeCreateFileEvent aeEventLoop.setsize
  constructor
  · constructor
    · intro h
      by_contra hlt
      rw [dif_pos (by omega)] at h
      exact Except.noConfusion h
    · intro h
      rw [dif_neg (by omega)]
  · intro h
    rw [dif_pos h]
    exact ⟨_, rfl⟩

/-- Witness for C7 at a concrete loop of capacity 2: fd 5 is rejected,
fd 1 is accepted. -/
theorem c7_register_capacity_witness :
    (aeCreateFileEvent (aeCreateEventLoop 2) 5 1 0 0 = .error .CapacityExceeded ↔
      (aeCreateEventLoop 2).setsize ≤ 5) ∧
    (1 < (aeCreateEventLoop 2).setsize →
      ∃ l', aeCreateFileEvent (aeCreateEventLoop 2) 1 1 0 0 = .ok l') :=
  ⟨(c7_register_capacity (aeCreateEventLoop 2) 5 1 0 0).1,
   fun h => (c7_register_capacity (aeCreateEventLoop 2) 1 1 0 0).2 h⟩

/-! ## C1: barrier ordering in a file-event dispatch pass -/

/-- C1: for a registration whose mask includes AE_BARRIER, in a pass where
both read and write readiness are reported, only the read callback is
invoked, the write callback is not invoked in that pass; in a subsequent
pass where write readiness is reported it is invoked.  Without AE_BARRIER
the order is read callback before write callback. -/
theorem c1_barrier_ordering (l : aeEventLoop) (fd : Nat) (fe : aeFileEvent)
    (hfe : l.events.getD fd emptyFileEvent = fe)
    (hr : fe.mask &&& AE_READABLE ≠ 0) (hw : fe.mask &&& AE_WRITABLE ≠ 0) :
    (fe.mask &&& AE_BARRIER ≠ 0 →
      aeProcessFileEvents l [⟨fd, AE_READABLE ||| AE_WRITABLE⟩] =
        [FEvt.readCall fd (fe.rfileProc.getD 0)] ∧
      aeProcessFileEvents l [⟨fd, AE_WRITABLE⟩] =
        [FEvt.writeCall fd (fe.wfileProc.getD 0)]) ∧
    (fe.mask &&& AE_BARRIER = 0 →
      aeProcessFileEvents l [⟨fd, AE_READABLE ||| AE_WRITABLE⟩] =
        [FEvt.readCall fd (fe.rfileProc.getD 0),
         FEvt.writeCall fd (fe.wfileProc.getD 0)]) := by
  have hmask : fe.mask ≠ AE_NONE := by
    intro h0
    rw [AE_NONE] at h0
    rw [h0] at hr
    simp [AE_READABLE] at hr
  have h31 : fe.mask &&& 3 &&& 1 ≠ 0 := by
    rw [Nat.land_assoc, show (3 : Nat) &&& 1 = 1 from by decide]
    exact hr
  have h32 : fe.mask &&& 3 &&& 2 ≠ 0 := by
    rw [Nat.land_assoc, show (3 : Nat) &&& 2 = 2 from by decide]
    exact hw
  have h21 : fe.mask &&& 2 &&& 1 = 0 := by
    rw [Nat.land_assoc, show (2 : Nat) &&& 1 = 0 from by decide, Nat.and_zero]
  have h22 : fe.mask &&& 2 &&& 2 ≠ 0 := by
    rw [Nat.land_assoc, show (2 : Nat) &&& 2 = 2 from by decide]
    exact hw
  have hm1 : fe.mask % 2 = 1 := by
    have := hr
    rw [AE_READABLE, Nat.and_one_is_mod] at this
    omega
  simp only [aeProcessFileEvents, List.map, List.flatten, hfe, hmask,
    if_neg hmask, List.append_nil, AE_READABLE, AE_WRITABLE, AE_BARRIER]
  constructor
  · intro hb
    constructor
    · simp [processOneFired, AE_READABLE, AE_WRITABLE, AE_BARRIER, h31, h32, hb, hm1]
    · simp [processOneFired, AE_READABLE, AE_WRITABLE, AE_BARRIER, h21, h22, hb, hm1]
  · intro hb
    simp [processOneFired, AE_READABLE, AE_WRITABLE, AE_BARRIER, h31, h32, hb, hm1]

/-- Witness for C1 at a concrete loop: one descriptor registered readable,
writable and barrier. -/
theorem c1_barrier_ordering_witness :
    ((⟨7, some 10, some 11, 0⟩ : aeFileEvent).mask &&& AE_BARRIER ≠ 0 →
      aeProcessFileEvents
        { timeEventNextId := 0, events := [⟨7, some 10, some 11, 0⟩],
          apievents := [3], timeEventHead := [], stop := false }
        [⟨0, AE_READABLE ||| AE_WRITABLE⟩] = [FEvt.readCall 0 10] ∧
      aeProcessFileEvents
        { timeEventNextId := 0, events := [⟨7, some 10, some 11, 0⟩],
          apievents := [3], timeEventHead := [], stop := false }
        [⟨0, AE_WRITABLE⟩] = [FEvt.writeCall 0 11]) ∧
    ((⟨7, some 10, some 11, 0⟩ : aeFileEvent).mask &&& AE_BARRIER = 0 →
      aeProcessFileEvents
        { timeEventNextId := 0, events := [⟨7, some 10, some 11, 0⟩],
          apievents := [3], timeEventHead := [], stop := false }
        [⟨0, AE_READABLE ||| AE_WRITABLE⟩] =
        [FEvt.readCall 0 10, FEvt.writeCall 0 11]) :=
  c1_barrier_ordering
    { timeEventNextId := 0, events := [⟨7, some 10, some 11, 0⟩],
      apievents := [3], timeEventHead := [], stop := false }
    0 ⟨7, some 10, some 11, 0⟩ (by decide) (by decide) (by decide)

/-! ## C9: anetSetBlock is idempotent at its interface -/

/-- C9: when the current O_NONBLOCK flag already matches the requested
mode, anetSetBlock returns ANET_OK without issuing any F_SETFL call and
leaves the flags unchanged; consequently applying anetSetBlock twice with
the same mode ends in the same state as applying it once, the second call
returning ANET_OK with only the F_GETFL read. -/
theorem c9_anetSetBlock_idempotent (flags nb : Nat) :
    (((flags &&& O_NONBLOCK) != 0) = (nb != 0) →
      anetSetBlock (some flags) nb = (ANET_OK, some flags, [FcntlCall.getfl])) ∧
    anetSetBlock (anetSetBlock (some flags) nb).2.1 nb =
      (ANET_OK, (anetSetBlock (some flags) nb).2.1, [FcntlCall.getfl]) := by
  constructor
  · intro h
    simp only [anetSetBlock]
    rw [if_pos h]
  · by_cases h : ((flags &&& O_NONBLOCK) != 0) = (nb != 0)
    · simp only [anetSetBlock]
      rw [if_pos h]
      simp only [anetSetBlock]
      rw [if_pos h]
    · simp only [anetSetBlock]
      rw [if_neg h]
      by_cases hnb : (nb != 0) = true
      · have hbit : ((flags ||| O_NONBLOCK) &&& O_NONBLOCK != 0) = (nb != 0) := by
          rw [lor_and_self, hnb]
          decide
        rw [if_pos hnb]
        simp only [anetSetBlock]
        rw [if_pos hbit]
      · have hz : (flags &&& NOT_O_NONBLOCK) &&& O_NONBLOCK = 0 := by
          rw [Nat.land_assoc,
            show NOT_O_NONBLOCK &&& O_NONBLOCK = 0 from by decide, Nat.and_zero]
        have hbit : ((flags &&& NOT_O_NONBLOCK) &&& O_NONBLOCK != 0) = (nb != 0) := by
          rw [hz]
          simp only [Bool.not_eq_true] at hnb
          rw [hnb]
          decide
        rw [if_neg hnb]
        simp only [anetSetBlock]
        rw [if_pos hbit]

/-- Witness for C9 at flags that already have O_NONBLOCK set and a request
for nonblocking mode. -/
theorem c9_anetSetBlock_idempotent_witness :
    (((2048 &&& O_NONBLOCK) != 0) = ((1 : Nat) != 0) →
      anetSetBlock (some 2048) 1 = (ANET_OK, some 2048, [FcntlCall.getfl])) ∧
    anetSetBlock (anetSetBlock (some 2048) 1).2.1 1 =
      (ANET_OK, (anetSetBlock (some 2048) 1).2.1, [FcntlCall.getfl]) :=
  c9_anetSetBlock_idempotent 2048 1

/-! ## C10: anetFormatAddr formatting -/

/-- C10: anetFormatAddr formats the pair with the ip surrounded by square
brackets exactly when the ip contains a colon, writes at most buf_len
bytes into the buffer (up to buf_len minus one characters plus the
terminating NUL, nothing when buf_len is zero) and returns the snprintf
result, the length of the full formatted string.  The ip argument is a
value in this embedding, so it is not modified. -/
theorem c10_anetFormatAddr_format (buf_len : Nat) (ip : List Char) (port : Int) :
    (anetFormatAddr buf_len ip port).1 = ((anetFormatAddrStr ip port).length : Int) ∧
    (anetFormatAddr buf_len ip port).2 =
      (if buf_len = 0 then [] else (anetFormatAddrStr ip port).take (buf_len - 1)) ∧
    (ip.contains ':' = true →
      anetFormatAddrStr ip port = '[' :: ip ++ (']' :: ':' :: (toString port).data)) ∧
    (ip.contains ':' = false →
      anetFormatAddrStr ip port = ip ++ (':' :: (toString port).data)) ∧
    (buf_len = 0 → (anetFormatAddr buf_len ip port).2 = []) ∧
    (0 < buf_len → (anetFormatAddr buf_len ip port).2.length + 1 ≤ buf_len) := by
  refine ⟨rfl, rfl, ?_, ?_, ?_, ?_⟩
  · intro h
    unfold anetFormatAddrStr
    rw [if_pos h]
  · intro h
    unfold anetFormatAddrStr
    rw [if_neg (by rw [h]; exact Bool.false_ne_true)]
  · intro h
    simp [anetFormatAddr, snprintfModel, h]
  · intro h
    have hne : buf_len ≠ 0 := by omega
    simp only [anetFormatAddr, snprintfModel, if_neg hne]
    have := List.length_take_le (buf_len - 1) (anetFormatAddrStr ip port)
    omega

/-- Witness for C10 on a concrete IPv6 address and buffer. -/
theorem c10_anetFormatAddr_format_witness :
    (anetFormatAddr 5 "::1".data 80).1 = (("[::1]:80".data.length : Nat) : Int) ∧
    ("::1".data.contains ':' = true →
      anetFormatAddrStr "::1".data 80 =
        '[' :: "::1".data ++ (']' :: ':' :: (toString (80 : Int)).data)) ∧
    (0 < 5 → (anetFormatAddr 5 "::1".data 80).2.length + 1 ≤ 5) := by
  have h := c10_anetFormatAddr_format 5 "::1".data 80
  exact ⟨by rw [h.1]; decide, h.2.2.1, h.2.2.2.2.2⟩

/-! ## C2: interest mask algebra and backend mirroring -/

lemma getD_set_self {α : Type} (l : List α) (i : Nat) (x d : α) (h : i < l.length) :
    (l.set i x).getD i d = x := by
  simp [List.getD, List.getElem?_set, h]

lemma getD_replicate {α : Type} {n i : Nat} (x d : α) (h : i < n) :
    (List.replicate n x).getD i d = x := by
  simp [List.getD, List.getElem?_replicate, h]


lemma bit_facts {x y : Nat} (hx : x < 8) (hy : y < 8) :
    ((x ||| y) &&& 3 = (x &&& 3) ||| (y &&& 3)) ∧
    ((x &&& (7 ^^^ y)) &&& 3 = (x &&& 3) &&& (3 ^^^ (y &&& 3))) ∧
    (x ||| y < 8) ∧
    ((x ||| y) &&& 1 = 0 → x &&& 1 = 0 ∧ y &&& 1 = 0) ∧
    ((x ||| y) &&& 2 = 0 → x &&& 2 = 0 ∧ y &&& 2 = 0) ∧
    (y &&& 1 = 0 → (x &&& (7 ^^^ y)) &&& 1 = x &&& 1) ∧
    (y &&& 2 = 0 → (x &&& (7 ^^^ y)) &&& 2 = x &&& 2) ∧
    (x &&& (7 ^^^ y) < 8) := by
  interval_cases x <;> interval_cases y <;> decide

lemma and7_and1 (m : Nat) : (m &&& 7) &&& 1 = m &&& 1 := by
  rw [Nat.land_assoc, show (7 : Nat) &&& 1 = 1 from by decide]

lemma and7_and2 (m : Nat) : (m &&& 7) &&& 2 = m &&& 2 := by
  rw [Nat.land_assoc, show (7 : Nat) &&& 2 = 2 from by decide]

lemma createFileEvent_ok (l : aeEventLoop) (fd m proc data : Nat)
    (h : fd < l.events.length) :
    aeCreateFileEvent l fd m proc data = .ok
      { l with
        events := l.events.set fd
          { mask := (l.events.getD fd emptyFileEvent).mask ||| (m &&& 7)
            rfileProc := if m &&& AE_READABLE ≠ 0 then some proc
                         else (l.events.getD fd emptyFileEvent).rfileProc
            wfileProc := if m &&& AE_WRITABLE ≠ 0 then some proc
                         else (l.events.getD fd emptyFileEvent).wfileProc
            clientData := data }
        apievents := l.apievents.set fd
          ((l.apievents.getD fd 0) ||| (m &&& 3)) } := by
  rw [aeCreateFileEvent, dif_pos h]
  rw [List.getD_eq_getElem l.events emptyFileEvent h]
  rw [aeApiAddEvent, show AE_READABLE ||| AE_WRITABLE = 3 from by decide]
  rfl

lemma deleteFileEvent_eq (l : aeEventLoop) (fd m : Nat)
    (h : fd < l.events.length)
    (hz : (l.events.getD fd emptyFileEvent).mask ≠ AE_NONE) :
    aeDeleteFileEvent l fd m =
      { l with
        events := l.events.set fd
          { mask := maskClear (l.events.getD fd emptyFileEvent).mask m
            rfileProc := if m &&& AE_READABLE ≠ 0 then none
                         else (l.events.getD fd emptyFileEvent).rfileProc
            wfileProc := if m &&& AE_WRITABLE ≠ 0 then none
                         else (l.events.getD fd emptyFileEvent).wfileProc
            clientData := (l.events.getD fd emptyFileEvent).clientData }
        apievents := l.apievents.set fd
          ((l.apievents.getD fd 0) &&& (3 ^^^ (m &&& 3))) } := by
  rw [List.getD_eq_getElem l.events emptyFileEvent h] at hz ⊢
  rw [aeDeleteFileEvent, dif_pos h]
  simp only [List.get_eq_getElem]
  rw [if_neg hz, aeApiDelEvent]

lemma deleteFileEvent_none (l : aeEventLoop) (fd m : Nat)
    (h : fd < l.events.length)
    (hz : (l.events.getD fd emptyFileEvent).mask = AE_NONE) :
    aeDeleteFileEvent l fd m = l := by
  rw [List.getD_eq_getElem l.events emptyFileEvent h] at hz
  rw [aeDeleteFileEvent, dif_pos h]
  simp only [List.get_eq_getElem]
  rw [if_pos hz]

lemma fslot_step (l : aeEventLoop) (fd : Nat) (op : FOp) (h : fslotWF l fd) :
    fslotWF (applyFOp l fd op) fd ∧
    aeGetFileEvents (applyFOp l fd op) fd = maskStep (aeGetFileEvents l fd) op := by
  obtain ⟨hlen, hfd, hm8, hmirror, hpr, hpw⟩ := h
  have hfd' : fd < l.apievents.length := by omega
  have hm8' : (l.events.getD fd emptyFileEvent).mask < 8 := hm8
  have hmir' : l.apievents.getD fd 0 =
      (l.events.getD fd emptyFileEvent).mask &&& 3 := hmirror
  have hpr' : (l.events.getD fd emptyFileEvent).mask &&& 1 = 0 →
      (l.events.getD fd emptyFileEvent).rfileProc = none := hpr
  have hpw' : (l.events.getD fd emptyFileEvent).mask &&& 2 = 0 →
      (l.events.getD fd emptyFileEvent).wfileProc = none := hpw
  cases op with
  | reg m proc data =>
    have B := bit_facts hm8' (and7_lt8 m)
    simp only [applyFOp, createFileEvent_ok l fd m proc data hfd]
    simp only [fslotWF, aeGetFileEvents, apiMask, maskStep, List.length_set,
      getD_set_self _ _ _ _ hfd, getD_set_self _ _ _ _ hfd']
    refine ⟨⟨hlen, hfd, B.2.2.1, ?_, ?_, ?_⟩, trivial⟩
    · rw [B.1, and7_and3, hmir']
    · intro hz
      rw [AE_READABLE] at hz
      obtain ⟨h1, h2⟩ := B.2.2.2.1 hz
      rw [and7_and1] at h2
      rw [if_neg (by rw [AE_READABLE]; omega)]
      exact hpr' h1
    · intro hz
      rw [AE_WRITABLE] at hz
      obtain ⟨h1, h2⟩ := B.2.2.2.2.1 hz
      rw [and7_and2] at h2
      rw [if_neg (by rw [AE_WRITABLE]; omega)]
      exact hpw' h1
  | dereg m =>
    by_cases hz0 : (l.events.getD fd emptyFileEvent).mask = AE_NONE
    · simp only [applyFOp, deleteFileEvent_none l fd m hfd hz0]
      refine ⟨⟨hlen, hfd, hm8, hmirror, hpr, hpw⟩, ?_⟩
      simp only [maskStep, aeGetFileEvents]
      rw [hz0, AE_NONE, Nat.zero_and]
    · have B := bit_facts hm8' (and7_lt8 m)
      simp only [applyFOp, deleteFileEvent_eq l fd m hfd hz0]
      simp only [fslotWF, aeGetFileEvents, apiMask, maskStep, maskClear,
        List.length_set, getD_set_self _ _ _ _ hfd, getD_set_self _ _ _ _ hfd']
      refine ⟨⟨hlen, hfd, B.2.2.2.2.2.2.2, ?_, ?_, ?_⟩, trivial⟩
      · rw [B.2.1, and7_and3, hmir']
      · intro hz
        by_cases hm1 : m &&& AE_READABLE ≠ 0
        · rw [if_pos hm1]
        · rw [if_neg hm1]
          rw [AE_READABLE] at hm1 hz
          have hy1 : (m &&& 7) &&& 1 = 0 := by rw [and7_and1]; omega
          rw [B.2.2.2.2.2.1 hy1] at hz
          exact hpr' hz
      · intro hz
        by_cases hm1 : m &&& AE_WRITABLE ≠ 0
        · rw [if_pos hm1]
        · rw [if_neg hm1]
          rw [AE_WRITABLE] at hm1 hz
          have hy1 : (m &&& 7) &&& 2 = 0 := by rw [and7_and2]; omega
          rw [B.2.2.2.2.2.2.1 hy1] at hz
          exact hpw' hz

lemma fslot_fold (l : aeEventLoop) (fd : Nat) (ops : List FOp) (h : fslotWF l fd) :
    fslotWF (applyFOps l fd ops) fd ∧
    aeGetFileEvents (applyFOps l fd ops) fd =
      ops.foldl maskStep (aeGetFileEvents l fd) := by
  induction ops generalizing l with
  | nil => exact ⟨h, rfl⟩
  | cons op ops ih =>
    obtain ⟨hwf, hmask⟩ := fslot_step l fd op h
    obtain ⟨hwf', hmask'⟩ := ih (applyFOp l fd op) hwf
    constructor
    · simpa [applyFOps, List.foldl] using hwf'
    · simp only [applyFOps, List.foldl] at hmask' ⊢
      rw [hmask', hmask]

lemma fslot_init {n fd : Nat} (h : fd < n) :
    fslotWF (aeCreateEventLoop n) fd ∧
    aeGetFileEvents (aeCreateEventLoop n) fd = 0 := by
  have he : (aeCreateEventLoop n).events.getD fd emptyFileEvent = emptyFileEvent :=
    getD_replicate _ _ h
  have ha : (aeCreateEventLoop n).apievents.getD fd 0 = 0 :=
    getD_replicate _ _ h
  have hm : aeGetFileEvents (aeCreateEventLoop n) fd = 0 := by
    rw [aeGetFileEvents, he]
    rfl
  refine ⟨⟨by simp [aeCreateEventLoop], by simp [aeCreateEventLoop, h],
    by rw [hm]; omega, by rw [apiMask, ha, hm]; decide, ?_, ?_⟩, hm⟩
  · intro _
    rw [he]
    rfl
  · intro _
    rw [he]
    rfl

lemma noop_facts {x : Nat} (hx : x < 8) :
    (x &&& 1 = 0 → x &&& (7 ^^^ (1 &&& 7)) = x ∧
      (x &&& 3) &&& (3 ^^^ (1 &&& 3)) = x &&& 3) ∧
    (x &&& 2 = 0 → x &&& (7 ^^^ (2 &&& 7)) = x ∧
      (x &&& 3) &&& (3 ^^^ (2 &&& 3)) = x &&& 3) := by
  interval_cases x <;> decide

/-- C2: for every sequence of register and deregister calls on one
descriptor the observed interest mask equals the bitwise union of the
registered direction bits minus the deregistered ones, accumulated in
call order; the backend interest always mirrors the read and write bits,
so a sequence resolving to mask None leaves no backend interest; and
deregistering a direction that is not registered is a no-op on the whole
loop state, not an error. -/
theorem c2_mask_union_minus (n fd : Nat) (ops : List FOp) (hfd : fd < n) :
    aeGetFileEvents (applyFOps (aeCreateEventLoop n) fd ops) fd = maskFold ops ∧
    apiMask (applyFOps (aeCreateEventLoop n) fd ops) fd = maskFold ops &&& 3 ∧
    (maskFold ops = AE_NONE →
      apiMask (applyFOps (aeCreateEventLoop n) fd ops) fd = AE_NONE) ∧
    (∀ l : aeEventLoop, ∀ d : Nat, fslotWF l fd →
      (d = AE_READABLE ∨ d = AE_WRITABLE) →
      aeGetFileEvents l fd &&& d = 0 →
      aeDeleteFileEvent l fd d = l) := by
  obtain ⟨hwf0, h0⟩ := fslot_init hfd
  obtain ⟨hwf, hm⟩ := fslot_fold (aeCreateEventLoop n) fd ops hwf0
  rw [h0] at hm
  have hmf : aeGetFileEvents (applyFOps (aeCreateEventLoop n) fd ops) fd =
      maskFold ops := hm
  have hmir := hwf.2.2.2.1
  refine ⟨hmf, by rw [hmir, hmf], ?_, ?_⟩
  · intro hz
    rw [hmir, hmf, hz, AE_NONE, Nat.zero_and]
  · intro l d hw hd hz
    obtain ⟨hlen, hfd2, hm8, hmir2, hpr, hpw⟩ := hw
    have hm8' : (l.events.getD fd emptyFileEvent).mask < 8 := hm8
    have hmir' : l.apievents.getD fd 0 =
        (l.events.getD fd emptyFileEvent).mask &&& 3 := hmir2
    have hfd2' : fd < l.apievents.length := by omega
    by_cases hz0 : (l.events.getD fd emptyFileEvent).mask = AE_NONE
    · exact deleteFileEvent_none l fd d hfd2 hz0
    · rw [deleteFileEvent_eq l fd d hfd2 hz0]
      have N := noop_facts hm8'
      cases hd with
      | inl h1 =>
        subst h1
        rw [AE_READABLE] at hz
        have hz1 : (l.events.getD fd emptyFileEvent).mask &&& 1 = 0 := hz
        obtain ⟨nm, na⟩ := N.1 hz1
        have hE : (aeFileEvent.mk
            (maskClear (l.events.getD fd emptyFileEvent).mask AE_READABLE)
            (if AE_READABLE &&& AE_READABLE ≠ 0 then none
             else (l.events.getD fd emptyFileEvent).rfileProc)
            (if AE_READABLE &&& AE_WRITABLE ≠ 0 then none
             else (l.events.getD fd emptyFileEvent).wfileProc)
            (l.events.getD fd emptyFileEvent).clientData)
            = l.events.getD fd emptyFileEvent := by
          rw [if_pos (by decide), if_neg (by decide), ← hpr hz1]
          simp only [maskClear, AE_READABLE]
          rw [nm]
        have hA : l.apievents.getD fd 0 &&& (3 ^^^ (AE_READABLE &&& 3)) =
            l.apievents.getD fd 0 := by
          simp only [AE_READABLE]
          rw [hmir', na]
        rw [hE, hA, List.getD_eq_getElem l.events emptyFileEvent hfd2,
          List.getD_eq_getElem l.apievents 0 hfd2',
          list_set_self l.events fd hfd2, list_set_self l.apievents fd hfd2']
      | inr h2 =>
        subst h2
        rw [AE_WRITABLE] at hz
        have hz1 : (l.events.getD fd emptyFileEvent).mask &&& 2 = 0 := hz
        obtain ⟨nm, na⟩ := N.2 hz1
        have hE : (aeFileEvent.mk
            (maskClear (l.events.getD fd emptyFileEvent).mask AE_WRITABLE)
            (if AE_WRITABLE &&& AE_READABLE ≠ 0 then none
             else (l.events.getD fd emptyFileEvent).rfileProc)
            (if AE_WRITABLE &&& AE_WRITABLE ≠ 0 then none
             else (l.events.getD fd emptyFileEvent).wfileProc)
            (l.events.getD fd emptyFileEvent).clientData)
            = l.events.getD fd emptyFileEvent := by
          rw [if_neg (by decide), if_pos (by decide), ← hpw hz1]
          simp only [maskClear, AE_WRITABLE]
          rw [nm]
        have hA : l.apievents.getD fd 0 &&& (3 ^^^ (AE_WRITABLE &&& 3)) =
            l.apievents.getD fd 0 := by
          simp only [AE_WRITABLE]
          rw [hmir', na]
        rw [hE, hA, List.getD_eq_getElem l.events emptyFileEvent hfd2,
          List.getD_eq_getElem l.apievents 0 hfd2',
          list_set_self l.events fd hfd2, list_set_self l.apievents fd hfd2']

/-- Witness for C2: register read then deregister read on descriptor 0 of
a loop of capacity 2. -/
theorem c2_mask_union_minus_witness :
    aeGetFileEvents (applyFOps (aeCreateEventLoop 2) 0
      [FOp.reg 1 5 0, FOp.dereg 1]) 0 = maskFold [FOp.reg 1 5 0, FOp.dereg 1] ∧
    apiMask (applyFOps (aeCreateEventLoop 2) 0
      [FOp.reg 1 5 0, FOp.dereg 1]) 0 = maskFold [FOp.reg 1 5 0, FOp.dereg 1] &&& 3 ∧
    (maskFold [FOp.reg 1 5 0, FOp.dereg 1] = AE_NONE →
      apiMask (applyFOps (aeCreateEventLoop 2) 0
        [FOp.reg 1 5 0, FOp.dereg 1]) 0 = AE_NONE) ∧
    (∀ l : aeEventLoop, ∀ d : Nat, fslotWF l 0 →
      (d = AE_READABLE ∨ d = AE_WRITABLE) →
      aeGetFileEvents l 0 &&& d = 0 →
      aeDeleteFileEvent l 0 d = l) :=
  c2_mask_union_minus 2 0 [FOp.reg 1 5 0, FOp.dereg 1] (by decide)

/-! ## C3: resize guard -/

/-- C3: shrinking the descriptor-table capacity to a bound that some
currently-interested descriptor does not fit under fails with
DescriptorOutOfRange (exactly then), and the failing call returns no
modified loop, so every existing registration is still present and a
registered read callback still fires on readiness; a new capacity at or
above the current one always succeeds, extends the table to the requested
capacity and preserves every slot. -/
theorem c3_resize_shrink_guard (l : aeEventLoop) (n : Nat) :
    (aeResizeSetSize l n = .error .DescriptorOutOfRange ↔
      ∃ fd, fd < l.setsize ∧ n ≤ fd ∧ aeGetFileEvents l fd ≠ AE_NONE) ∧
    (l.setsize ≤ n → ∃ l', aeResizeSetSize l n = .ok l' ∧
      l'.setsize = n ∧ l'.events.take l.setsize = l.events) ∧
    (∀ fd p, aeResizeSetSize l n = .error .DescriptorOutOfRange →
      aeGetFileEvents l fd &&& AE_READABLE ≠ 0 →
      (l.events.getD fd emptyFileEvent).rfileProc = some p →
      FEvt.readCall fd p ∈ aeProcessFileEvents l [⟨fd, AE_READABLE⟩]) := by
  refine ⟨?_, ?_, ?_⟩
  · constructor
    · intro h
      rw [aeResizeSetSize] at h
      by_cases hc : (l.events.drop n).any (fun fe => fe.mask ≠ AE_NONE)
      · rw [List.any_eq_true] at hc
        obtain ⟨fe, hmem, hfe⟩ := hc
        obtain ⟨i, hi, hieq⟩ := List.getElem_of_mem hmem
        have hlen : i < l.events.length - n := by
          simpa [List.length_drop] using hi
        have hb1 : n + i < l.events.length := by omega
        have hgd : (l.events.drop n)[i] = l.events[n + i] :=
          List.getElem_drop ..
        have hsz : l.setsize = l.events.length := rfl
        refine ⟨n + i, by omega, by omega, ?_⟩
        rw [aeGetFileEvents, List.getD_eq_getElem l.events emptyFileEvent hb1]
        have hfe' : ¬(l.events[n + i]).mask = AE_NONE := by
          rw [← hgd, hieq]
          simpa using hfe
        exact hfe'
      · rw [if_neg hc] at h
        exact absurd h (by simp)
    · intro ⟨fd, h1, h2, h3⟩
      rw [aeResizeSetSize, if_pos]
      rw [List.any_eq_true]
      have h1' : fd < l.events.length := h1
      have hfd : fd - n < (l.events.drop n).length := by
        simp [List.length_drop]
        omega
      have hb2 : n + (fd - n) < l.events.length := by omega
      have hgd : (l.events.drop n)[fd - n] = l.events[n + (fd - n)] :=
        List.getElem_drop ..
      have hmem : l.events[fd] ∈ l.events.drop n := by
        have hmm := List.getElem_mem hfd
        rw [hgd, getElem_congr (show n + (fd - n) = fd from by omega)] at hmm
        exact hmm
      refine ⟨l.events[fd], hmem, ?_⟩
      rw [aeGetFileEvents, List.getD_eq_getElem l.events emptyFileEvent h1'] at h3
      simpa using h3
  · intro hle
    have hc : ¬((l.events.drop n).any (fun fe => fe.mask ≠ AE_NONE) = true) := by
      rw [List.drop_eq_nil_of_le hle]
      simp
    rw [aeResizeSetSize, if_neg hc]
    refine ⟨_, rfl, ?_, ?_⟩
    · by_cases hn : n ≤ l.events.length
      · have heq : n = l.events.length := by
          rw [aeEventLoop.setsize] at hle
          omega
        simp [aeEventLoop.setsize, hn, heq]
      · simp only [aeEventLoop.setsize, if_neg hn, List.length_append,
          List.length_replicate]
        rw [aeEventLoop.setsize] at hle
        omega
    · by_cases hn : n ≤ l.events.length
      · have heq : n = l.events.length := by
          rw [aeEventLoop.setsize] at hle
          omega
        simp [aeEventLoop.setsize, hn, heq]
      · simp only [aeEventLoop.setsize, if_neg hn]
        exact List.take_left l.events _
  · intro fd p herr hr hp
    have hmask : (l.events.getD fd emptyFileEvent).mask ≠ AE_NONE := by
      intro h0
      rw [aeGetFileEvents, h0] at hr
      rw [AE_NONE] at hr
      simp [AE_READABLE] at hr
    have hr' : (l.events.getD fd emptyFileEvent).mask &&& AE_READABLE ≠ 0 := hr
    have h11 : (l.events.getD fd emptyFileEvent).mask &&& AE_READABLE &&& AE_READABLE ≠ 0 := by
      rw [Nat.land_assoc, show AE_READABLE &&& AE_READABLE = AE_READABLE from by decide]
      exact hr'
    have h12 : (l.events.getD fd emptyFileEvent).mask &&& AE_READABLE &&& AE_WRITABLE = 0 := by
      rw [Nat.land_assoc, show AE_READABLE &&& AE_WRITABLE = 0 from by decide, Nat.and_zero]
    simp only [aeProcessFileEvents, List.map, List.flatten, if_neg hmask,
      List.append_nil]
    rw [processOneFired]
    simp only [h11, h12]
    simp [hp]
    constructor
    · simpa [List.getD] using h11
    · have hp' : (l.events[fd]?.getD emptyFileEvent).rfileProc = some p := by
        simpa [List.getD] using hp
      rw [hp']
      rfl

/-- Witness for C3: a loop of capacity 2 with descriptor 1 registered for
read refuses to shrink to capacity 1 and the registration still fires. -/
theorem c3_resize_shrink_guard_witness :
    aeResizeSetSize
      { timeEventNextId := 0, events := [emptyFileEvent, ⟨1, some 5, none, 0⟩],
        apievents := [0, 1], timeEventHead := [], stop := false } 1 =
      .error .DescriptorOutOfRange ∧
    FEvt.readCall 1 5 ∈ aeProcessFileEvents
      { timeEventNextId := 0, events := [emptyFileEvent, ⟨1, some 5, none, 0⟩],
        apievents := [0, 1], timeEventHead := [], stop := false }
      [⟨1, AE_READABLE⟩] := by
  have h := c3_resize_shrink_guard
    { timeEventNextId := 0, events := [emptyFileEvent, ⟨1, some 5, none, 0⟩],
      apievents := [0, 1], timeEventHead := [], stop := false } 1
  have herr := h.1.mpr ⟨1, by decide, by decide, by decide⟩
  exact ⟨herr, h.2.2 1 5 herr (by decide) (by decide)⟩

/-! ## C8: monotonic clock basis -/

/-- C8: a scheduled timer takes its absolute due time from the monotonic
clock reading plus the delay, and both scheduling and the dispatch pass
read only the monotonic component of the clock environment: any change of
the wall clock leaves scheduling and dispatch results unchanged, so
firing is immune to system clock adjustments. -/
theorem c8_monotonic_basis (l : aeEventLoop) (c c' : Clocks) (ms : Nat)
    (act : TimerAction) (fin : Option Nat) (data : Nat)
    (h : c.mono = c'.mono) :
    (aeCreateTimeEventClock l c ms act fin data).2.timeEventHead =
      { id := l.timeEventNextId, deleted := false, when := c.mono + ms
        timeProc := act, finalizerProc := fin, clientData := data
        refcount := 0 } :: l.timeEventHead ∧
    aeCreateTimeEventClock l c ms act fin data =
      aeCreateTimeEventClock l c' ms act fin data ∧
    processTimeEventsClock l c = processTimeEventsClock l c' := by
  refine ⟨rfl, ?_, ?_⟩
  · rw [aeCreateTimeEventClock, aeCreateTimeEventClock, h]
  · rw [processTimeEventsClock, processTimeEventsClock, h]

/-- Witness for C8: two clock environments with equal monotonic readings
and different wall readings. -/
theorem c8_monotonic_basis_witness :
    (aeCreateTimeEventClock (aeCreateEventLoop 0) ⟨5, 1000⟩ 7
      (TimerAction.ret (-1)) none 0).2.timeEventHead =
      { id := 0, deleted := false, when := 5 + 7
        timeProc := TimerAction.ret (-1), finalizerProc := none, clientData := 0
        refcount := 0 } :: [] ∧
    aeCreateTimeEventClock (aeCreateEventLoop 0) ⟨5, 1000⟩ 7
        (TimerAction.ret (-1)) none 0 =
      aeCreateTimeEventClock (aeCreateEventLoop 0) ⟨5, -400⟩ 7
        (TimerAction.ret (-1)) none 0 ∧
    processTimeEventsClock (aeCreateEventLoop 0) ⟨5, 1000⟩ =
      processTimeEventsClock (aeCreateEventLoop 0) ⟨5, -400⟩ :=
  c8_monotonic_basis (aeCreateEventLoop 0) ⟨5, 1000⟩ ⟨5, -400⟩ 7
    (TimerAction.ret (-1)) none 0 rfl

/-! ## Timer pass lemmas (towards C4, C5, C6) -/

lemma tlIds_append (a b : List aeTimeEvent) :
    tlIds (a ++ b) = tlIds a ++ tlIds b := by
  simp [tlIds]

lemma tlIds_cons (e : aeTimeEvent) (ts : List aeTimeEvent) :
    tlIds (e :: ts) = e.id :: tlIds ts := rfl

lemma firedIds_append (a b : List TEvt) :
    firedIds (a ++ b) = firedIds a ++ firedIds b := by
  simp [firedIds]

lemma finIds_append (a b : List TEvt) :
    finIds (a ++ b) = finIds a ++ finIds b := by
  simp [finIds]

lemma fired_mem_firedIds {i w : Nat} {tr : List TEvt}
    (h : TEvt.fired i w ∈ tr) : i ∈ firedIds tr := by
  rw [firedIds, List.mem_filterMap]
  exact ⟨TEvt.fired i w, h, rfl⟩

lemma finalized_mem_finIds {i f : Nat} {tr : List TEvt}
    (h : TEvt.finalized i f ∈ tr) : i ∈ finIds tr := by
  rw [finIds, List.mem_filterMap]
  exact ⟨TEvt.finalized i f, h, rfl⟩

lemma cancelScan_evs {ts : List aeTimeEvent} {tid : Nat}
    (ts' : List aeTimeEvent) (evs : List TEvt)
    (h : cancelScan ts tid = some (ts', evs)) :
    evs = [] ∨ ∃ f, evs = [TEvt.finalized tid f] := by
  induction ts generalizing ts' evs with
  | nil => exact absurd h (by rw [cancelScan]; simp)
  | cons te tail ih =>
    rw [cancelScan] at h
    by_cases hc : te.id = tid ∧ te.deleted = false
    · rw [if_pos hc] at h
      by_cases hrc : te.refcount = 0
      · rw [if_pos hrc] at h
        cases hf : te.finalizerProc with
        | none =>
          rw [hf] at h
          simp only [Option.some.injEq, Prod.mk.injEq] at h
          exact Or.inl h.2.symm
        | some f =>
          rw [hf] at h
          simp only [Option.some.injEq, Prod.mk.injEq] at h
          exact Or.inr ⟨f, by rw [← h.2, hc.1]⟩
      · rw [if_neg hrc] at h
        simp only [Option.some.injEq, Prod.mk.injEq] at h
        exact Or.inl h.2.symm
    · rw [if_neg hc] at h
      cases hrec : cancelScan tail tid with
      | none =>
        rw [hrec] at h
        exact absurd h (by simp)
      | some p =>
        rw [hrec] at h
        simp only [Option.some.injEq, Prod.mk.injEq] at h
        exact h.2 ▸ ih p.1 p.2 (by rw [hrec])

lemma cancelScan_none {ts : List aeTimeEvent} {tid : Nat} :
    cancelScan ts tid = none ↔
    ∀ te ∈ ts, ¬(te.id = tid ∧ te.deleted = false) := by
  induction ts with
  | nil => simp [cancelScan]
  | cons te tail ih =>
    rw [cancelScan]
    by_cases hc : te.id = tid ∧ te.deleted = false
    · rw [if_pos hc]
      constructor
      · intro h
        by_cases hrc : te.refcount = 0
        · rw [if_pos hrc] at h
          exact absurd h (by simp)
        · rw [if_neg hrc] at h
          exact absurd h (by simp)
      · intro h
        exact absurd hc (h te (by simp))
    · rw [if_neg hc]
      constructor
      · intro h te' hmem
        rcases List.mem_cons.mp hmem with he | ht
        · rw [he]
          exact hc
        · cases hrec : cancelScan tail tid with
          | none => exact (ih.mp hrec) te' ht
          | some p =>
            rw [hrec] at h
            exact absurd h (by simp)
      · intro h
        cases hrec : cancelScan tail tid with
        | none => rfl
        | some p =>
          have : cancelScan tail tid = none :=
            ih.mpr (fun e he => h e (List.mem_cons_of_mem te he))
          rw [this] at hrec
          exact Option.noConfusion hrec

lemma cancelScan_zero {ts : List aeTimeEvent} {tid : Nat}
    (Hrc : ∀ e ∈ ts, e.refcount = 0) (ts' : List aeTimeEvent) (evs : List TEvt)
    (h : cancelScan ts tid = some (ts', evs)) :
    ∃ pre te post, ts = pre ++ te :: post ∧ ts' = pre ++ post ∧
      te.id = tid ∧ te.deleted = false ∧
      evs = (match te.finalizerProc with
             | some f => [TEvt.finalized te.id f]
             | none => []) := by
  induction ts generalizing ts' evs with
  | nil => exact absurd h (by rw [cancelScan]; simp)
  | cons te tail ih =>
    rw [cancelScan] at h
    by_cases hc : te.id = tid ∧ te.deleted = false
    · rw [if_pos hc, if_pos (Hrc te (by simp))] at h
      simp only [Option.some.injEq, Prod.mk.injEq] at h
      exact ⟨[], te, tail, by simp, by simp [← h.1], hc.1, hc.2, h.2.symm⟩
    · rw [if_neg hc] at h
      cases hrec : cancelScan tail tid with
      | none =>
        rw [hrec] at h
        exact absurd h (by simp)
      | some p =>
        rw [hrec] at h
        simp only [Option.some.injEq, Prod.mk.injEq] at h
        obtain ⟨pre, e, post, h1, h2, h3, h4, h5⟩ :=
          ih (fun e he => Hrc e (List.mem_cons_of_mem te he))
            p.1 p.2 (by rw [hrec])
        exact ⟨te :: pre, e, post, by rw [h1]; rfl,
          by rw [← h.1, h2]; rfl, h3, h4, by rw [← h.2, h5]⟩

lemma nodup_split3 {A B : List Nat} {c : Nat} (h : (A ++ c :: B).Nodup) :
    A.Nodup ∧ B.Nodup ∧ c ∉ A ∧ c ∉ B ∧ ∀ i ∈ A, i ∉ B := by
  rw [List.nodup_append] at h
  obtain ⟨hA, hcB, hdisj⟩ := h
  rw [List.nodup_cons] at hcB
  exact ⟨hA, hcB.2, fun hc => hdisj hc (by simp), hcB.1,
    fun i hi hib => hdisj hi (by simp [hib])⟩

lemma finIds_match_fin (j : Nat) (fin : Option Nat) :
    firedIds (match fin with
              | some f => [TEvt.finalized j f]
              | none => []) = [] := by
  cases fin <;> rfl

lemma applyAction_spec {act : TimerAction} {now : Nat} {cur : aeTimeEvent}
    {done rest : List aeTimeEvent} {nid : Nat} {r : VisitResult}
    (hr : applyAction act now cur done rest nid = r)
    (Hrc : ∀ e ∈ done ++ rest, e.refcount = 0 ∧ e.deleted = false)
    (Hnd : (tlIds done ++ cur.id :: tlIds rest).Nodup)
    (Hlt : ∀ i ∈ tlIds done ++ cur.id :: tlIds rest, i < nid) :
    (∀ e ∈ r.done ++ r.rest, e.refcount = 0 ∧ e.deleted = false) ∧
    (tlIds r.done ++ r.cur.id :: tlIds r.rest).Nodup ∧
    (∀ i ∈ tlIds r.done ++ r.cur.id :: tlIds r.rest, i < r.nextId) ∧
    nid ≤ r.nextId ∧
    r.cur.id = cur.id ∧
    r.cur.refcount = cur.refcount ∧
    r.cur.finalizerProc = cur.finalizerProc ∧
    List.Sublist (tlIds r.rest) (tlIds rest) ∧
    r.rest.length ≤ rest.length ∧
    firedIds r.evs = [] ∧
    (∀ i ∈ tlIds r.done ++ tlIds r.rest, i ∈ tlIds done ++ tlIds rest ∨ nid ≤ i) ∧
    (∀ i ∈ finIds r.evs, (i ∈ tlIds done ++ tlIds rest) ∧ i < nid ∧ i ≠ cur.id ∧
      i ∉ tlIds r.done ++ tlIds r.rest) := by
  cases act with
  | ret v =>
    rw [applyAction] at hr
    subst hr
    dsimp only
    refine ⟨Hrc, Hnd, Hlt, Nat.le_refl _, rfl, rfl, rfl, List.Sublist.refl _,
      Nat.le_refl _, rfl, fun i hi => Or.inl hi, fun i hi => ?_⟩
    exact absurd hi (by simp [finIds])
  | schedThen delay a2 fin2 v =>
    rw [applyAction] at hr
    subst hr
    dsimp only
    refine ⟨?_, ?_, ?_, Nat.le_succ _, rfl, rfl, rfl, List.Sublist.refl _,
      Nat.le_refl _, rfl, ?_, fun i hi => ?_⟩
    · intro e he
      rcases List.mem_append.mp he with hl | hrr
      · rcases List.mem_cons.mp hl with he1 | he2
        · rw [he1]
          exact ⟨rfl, rfl⟩
        · exact Hrc e (List.mem_append_left rest he2)
      · exact Hrc e (List.mem_append_right done hrr)
    · show ((nid :: tlIds done) ++ cur.id :: tlIds rest).Nodup
      rw [List.cons_append, List.nodup_cons]
      refine ⟨fun hmem => ?_, Hnd⟩
      exact absurd (Hlt nid hmem) (by omega)
    · intro i hi
      simp only [tlIds_cons, List.cons_append, List.mem_cons] at hi
      rcases hi with h1 | h2
      · omega
      · have := Hlt i h2
        omega
    · intro i hi
      simp only [tlIds_cons, List.cons_append, List.mem_cons] at hi
      rcases hi with h1 | h2
      · exact Or.inr (by omega)
      · exact Or.inl h2
    · exact absurd hi (by simp [finIds])
  | cancelThen tid v =>
    rw [applyAction] at hr
    cases hdone : cancelScan done tid with
    | some p =>
      rw [hdone] at hr
      subst hr
      dsimp only
      have Hrc0 : ∀ e ∈ done, e.refcount = 0 :=
        fun e he => (Hrc e (List.mem_append_left rest he)).1
      obtain ⟨pre, e, post, hdn, hdn', heid, hedel, hevs⟩ :=
        cancelScan_zero Hrc0 p.1 p.2 (by rw [hdone])
      have hA : tlIds done = tlIds pre ++ e.id :: tlIds post := by
        rw [hdn, tlIds_append, tlIds_cons]
      have hS : tlIds p.1 = tlIds pre ++ tlIds post := by
        rw [hdn', tlIds_append]
      have hsubl : List.Sublist (tlIds p.1) (tlIds done) := by
        rw [hA, hS]
        exact List.Sublist.append_left ((List.Sublist.refl _).cons e.id) _
      have hsubm : ∀ x ∈ p.1, x ∈ done := by
        intro x hx
        rw [hdn'] at hx
        rw [hdn]
        rcases List.mem_append.mp hx with h1 | h2
        · exact List.mem_append_left _ h1
        · exact List.mem_append_right _ (List.mem_cons_of_mem e h2)
      have hsubi : ∀ i ∈ tlIds p.1, i ∈ tlIds done := fun i hi => hsubl.mem hi
      have Hout := nodup_split3 Hnd
      have Hin := nodup_split3 (hA ▸ Hout.1)
      have heidin : e.id ∈ tlIds done := by
        rw [hA]
        exact List.mem_append_right _ (by simp)
      refine ⟨?_, ?_, ?_, Nat.le_refl _, rfl, rfl, rfl, List.Sublist.refl _,
        Nat.le_refl _, ?_, ?_, ?_⟩
      · intro x hx
        rcases List.mem_append.mp hx with h1 | h2
        · exact Hrc x (List.mem_append_left rest (hsubm x h1))
        · exact Hrc x (List.mem_append_right done h2)
      · exact Hnd.sublist (List.Sublist.append_right hsubl _)
      · intro i hi
        rcases List.mem_append.mp hi with h1 | h2
        · exact Hlt i (List.mem_append_left _ (hsubi i h1))
        · exact Hlt i (List.mem_append_right _ h2)
      · rw [hevs]
        exact finIds_match_fin e.id e.finalizerProc
      · intro i hi
        rcases List.mem_append.mp hi with h1 | h2
        · exact Or.inl (List.mem_append_left _ (hsubi i h1))
        · exact Or.inl (List.mem_append_right _ h2)
      · intro i hi
        rw [hevs] at hi
        cases hf : e.finalizerProc with
        | none =>
          rw [hf] at hi
          exact absurd hi (by simp [finIds])
        | some f =>
          rw [hf] at hi
          have : i = e.id := by
            simpa [finIds] using hi
          subst this
          refine ⟨List.mem_append_left _ heidin, ?_, ?_, ?_⟩
          · exact Hlt e.id (List.mem_append_left _ heidin)
          · intro hceq
            exact Hout.2.2.1 (hceq ▸ heidin)
          · intro hmem
            rcases List.mem_append.mp hmem with h1 | h2
            · rw [hS] at h1
              rcases List.mem_append.mp h1 with h3 | h4
              · exact Hin.2.2.1 h3
              · exact Hin.2.2.2.1 h4
            · exact Hout.2.2.2.2 e.id heidin h2
    | none =>
      rw [hdone] at hr
      by_cases hcur : cur.id = tid ∧ cur.deleted = false
      · rw [if_pos hcur] at hr
        subst hr
        dsimp only
        refine ⟨Hrc, Hnd, Hlt, Nat.le_refl _, rfl, rfl, rfl, List.Sublist.refl _,
          Nat.le_refl _, rfl, fun i hi => Or.inl hi, fun i hi => ?_⟩
        exact absurd hi (by simp [finIds])
      · rw [if_neg hcur] at hr
        cases hrest : cancelScan rest tid with
        | some p =>
          rw [hrest] at hr
          subst hr
          dsimp only
          have Hrc0 : ∀ e ∈ rest, e.refcount = 0 :=
            fun e he => (Hrc e (List.mem_append_right done he)).1
          obtain ⟨pre, e, post, hdn, hdn', heid, hedel, hevs⟩ :=
            cancelScan_zero Hrc0 p.1 p.2 (by rw [hrest])
          have hA : tlIds rest = tlIds pre ++ e.id :: tlIds post := by
            rw [hdn, tlIds_append, tlIds_cons]
          have hS : tlIds p.1 = tlIds pre ++ tlIds post := by
            rw [hdn', tlIds_append]
          have hsubl : List.Sublist (tlIds p.1) (tlIds rest) := by
            rw [hA, hS]
            exact List.Sublist.append_left ((List.Sublist.refl _).cons e.id) _
          have hsubm : ∀ x ∈ p.1, x ∈ rest := by
            intro x hx
            rw [hdn'] at hx
            rw [hdn]
            rcases List.mem_append.mp hx with h1 | h2
            · exact List.mem_append_left _ h1
            · exact List.mem_append_right _ (List.mem_cons_of_mem e h2)
          have hsubi : ∀ i ∈ tlIds p.1, i ∈ tlIds rest := fun i hi => hsubl.mem hi
          have Hout := nodup_split3 Hnd
          have Hin := nodup_split3 (hA ▸ Hout.2.1)
          have heidin : e.id ∈ tlIds rest := by
            rw [hA]
            exact List.mem_append_right _ (by simp)
          have hlen : p.1.length ≤ rest.length := by
            have := hsubl.length_le
            simpa [tlIds] using this
          refine ⟨?_, ?_, ?_, Nat.le_refl _, rfl, rfl, rfl, hsubl, hlen, ?_, ?_, ?_⟩
          · intro x hx
            rcases List.mem_append.mp hx with h1 | h2
            · exact Hrc x (List.mem_append_left rest h1)
            · exact Hrc x (List.mem_append_right done (hsubm x h2))
          · refine Hnd.sublist ?_
            exact List.Sublist.append_left ((hsubl.cons₂ cur.id)) _
          · intro i hi
            rcases List.mem_append.mp hi with h1 | h2
            · exact Hlt i (List.mem_append_left _ h1)
            · rcases List.mem_cons.mp h2 with h3 | h4
              · exact Hlt i (List.mem_append_right _ (by simp [h3]))
              · exact Hlt i (List.mem_append_right _
                  (List.mem_cons_of_mem _ (hsubi i h4)))
          · rw [hevs]
            exact finIds_match_fin e.id e.finalizerProc
          · intro i hi
            rcases List.mem_append.mp hi with h1 | h2
            · exact Or.inl (List.mem_append_left _ h1)
            · exact Or.inl (List.mem_append_right _ (hsubi i h2))
          · intro i hi
            rw [hevs] at hi
            cases hf : e.finalizerProc with
            | none =>
              rw [hf] at hi
              exact absurd hi (by simp [finIds])
            | some f =>
              rw [hf] at hi
              have : i = e.id := by
                simpa [finIds] using hi
              subst this
              refine ⟨List.mem_append_right _ heidin, ?_, ?_, ?_⟩
              · exact Hlt e.id (List.mem_append_right _
                  (List.mem_cons_of_mem _ heidin))
              · intro hceq
                exact Hout.2.2.2.1 (hceq ▸ heidin)
              · intro hmem
                rcases List.mem_append.mp hmem with h1 | h2
                · exact Hout.2.2.2.2 e.id h1 heidin
                · rw [hS] at h2
                  rcases List.mem_append.mp h2 with h3 | h4
                  · exact Hin.2.2.1 h3
                  · exact Hin.2.2.2.1 h4
        | none =>
          rw [hrest] at hr
          subst hr
          dsimp only
          refine ⟨Hrc, Hnd, Hlt, Nat.le_refl _, rfl, rfl, rfl, List.Sublist.refl _,
            Nat.le_refl _, rfl, fun i hi => Or.inl hi, fun i hi => ?_⟩
          exact absurd hi (by simp [finIds])

lemma firedIds_cons_fired (i w : Nat) (tr : List TEvt) :
    firedIds (TEvt.fired i w :: tr) = i :: firedIds tr := by
  simp [firedIds]

lemma finIds_cons_fired (i w : Nat) (tr : List TEvt) :
    finIds (TEvt.fired i w :: tr) = finIds tr := by
  simp [finIds]

lemma finIds_fevs (j : Nat) (fin : Option Nat) :
    finIds (match fin with
            | some f => [TEvt.finalized j f]
            | none => []) =
    (match fin with
     | some _ => [j]
     | none => []) := by
  cases fin <;> rfl

lemma fired_not_mem_fevs (i w j : Nat) (fin : Option Nat) :
    TEvt.fired i w ∉ (match fin with
                      | some f => [TEvt.finalized j f]
                      | none => []) := by
  cases fin <;> simp

lemma nodup_append_of {A B : List Nat} (hA : A.Nodup) (hB : B.Nodup)
    (h : ∀ i ∈ A, i ∉ B) : (A ++ B).Nodup := by
  rw [List.nodup_append]
  exact ⟨hA, hB, h⟩

lemma applyAction_evs {act : TimerAction} {now : Nat} {cur : aeTimeEvent}
    {done rest : List aeTimeEvent} {nid : Nat} {r : VisitResult}
    (hr : applyAction act now cur done rest nid = r) :
    r.evs = [] ∨ ∃ j f, r.evs = [TEvt.finalized j f] := by
  cases act with
  | ret v =>
    rw [applyAction] at hr
    subst hr
    exact Or.inl rfl
  | schedThen delay a2 fin2 v =>
    rw [applyAction] at hr
    subst hr
    exact Or.inl rfl
  | cancelThen tid v =>
    rw [applyAction] at hr
    cases hdone : cancelScan done tid with
    | some p =>
      rw [hdone] at hr
      subst hr
      dsimp only
      rcases cancelScan_evs p.1 p.2 (by rw [hdone]) with h | ⟨f, hf⟩
      · exact Or.inl h
      · exact Or.inr ⟨tid, f, hf⟩
    | none =>
      rw [hdone] at hr
      by_cases hcur : cur.id = tid ∧ cur.deleted = false
      · rw [if_pos hcur] at hr
        subst hr
        exact Or.inl rfl
      · rw [if_neg hcur] at hr
        cases hrest : cancelScan rest tid with
        | some p =>
          rw [hrest] at hr
          subst hr
          dsimp only
          rcases cancelScan_evs p.1 p.2 (by rw [hrest]) with h | ⟨f, hf⟩
          · exact Or.inl h
          · exact Or.inr ⟨tid, f, hf⟩
        | none =>
          rw [hrest] at hr
          subst hr
          exact Or.inl rfl

lemma evs_finIds_nodup {evs : List TEvt}
    (h : evs = [] ∨ ∃ j f, evs = [TEvt.finalized j f]) :
    (finIds evs).Nodup ∧ (∀ i w, TEvt.fired i w ∉ evs) := by
  rcases h with h | ⟨j, f, h⟩ <;> subst h <;> simp [finIds]

lemma runTimers_spec (now maxIdEx : Nat) :
    ∀ (fuel : Nat) (done rest : List aeTimeEvent) (nid : Nat),
      rest.length ≤ fuel →
      (∀ e ∈ done ++ rest, e.refcount = 0 ∧ e.deleted = false) →
      (tlIds (done ++ rest)).Nodup →
      (∀ i ∈ tlIds (done ++ rest), i < nid) →
      (∀ e ∈ (runTimers now maxIdEx fuel done rest nid).1,
        e.refcount = 0 ∧ e.deleted = false) ∧
      (tlIds (runTimers now maxIdEx fuel done rest nid).1).Nodup ∧
      (∀ i ∈ tlIds (runTimers now maxIdEx fuel done rest nid).1,
        i < (runTimers now maxIdEx fuel done rest nid).2.1) ∧
      nid ≤ (runTimers now maxIdEx fuel done rest nid).2.1 ∧
      (∀ i ∈ tlIds (runTimers now maxIdEx fuel done rest nid).1,
        i ∈ tlIds (done ++ rest) ∨ nid ≤ i) ∧
      (∀ i w, TEvt.fired i w ∈ (runTimers now maxIdEx fuel done rest nid).2.2 →
        w ≤ now) ∧
      List.Sublist (firedIds (runTimers now maxIdEx fuel done rest nid).2.2)
        (tlIds rest) ∧
      (∀ i ∈ firedIds (runTimers now maxIdEx fuel done rest nid).2.2,
        i < maxIdEx) ∧
      (finIds (runTimers now maxIdEx fuel done rest nid).2.2).Nodup ∧
      (∀ i ∈ finIds (runTimers now maxIdEx fuel done rest nid).2.2,
        (i ∈ tlIds (done ++ rest) ∨ nid ≤ i) ∧
        i ∉ tlIds (runTimers now maxIdEx fuel done rest nid).1) := by
  intro fuel
  induction fuel with
  | zero =>
    intro done rest nid hlen Hrc Hnd Hlt
    rw [runTimers]
    dsimp only
    refine ⟨Hrc, Hnd, Hlt, Nat.le_refl _, fun i hi => Or.inl hi,
      fun i w h => absurd h (List.not_mem_nil _), ?_, ?_, ?_, ?_⟩
    · exact (by simp [firedIds] : firedIds ([] : List TEvt) = []) ▸
        List.nil_sublist _
    · intro i hi
      exact absurd hi (by simp [firedIds])
    · simp [finIds]
    · intro i hi
      exact absurd hi (by simp [finIds])
  | succ fuel IH =>
    intro done rest nid hlen Hrc Hnd Hlt
    cases rest with
    | nil =>
      rw [runTimers]
      dsimp only
      rw [List.append_nil] at Hrc Hnd Hlt ⊢
      refine ⟨Hrc, Hnd, Hlt, Nat.le_refl _, fun i hi => Or.inl hi,
        fun i w h => absurd h (List.not_mem_nil _), ?_, ?_, ?_, ?_⟩
      · exact (by simp [firedIds] : firedIds ([] : List TEvt) = []) ▸
          List.nil_sublist _
      · intro i hi
        exact absurd hi (by simp [firedIds])
      · simp [finIds]
      · intro i hi
        exact absurd hi (by simp [finIds])
    | cons te rest =>
      have hte := Hrc te (List.mem_append_right done (List.mem_cons_self te rest))
      have hlen' : rest.length ≤ fuel := by
        simp only [List.length_cons] at hlen
        omega
      have Hrc2 : ∀ e ∈ done ++ rest, e.refcount = 0 ∧ e.deleted = false := by
        intro e he
        rcases List.mem_append.mp he with h1 | h2
        · exact Hrc e (List.mem_append_left _ h1)
        · exact Hrc e (List.mem_append_right _ (List.mem_cons_of_mem te h2))
      have Hnd' : (tlIds done ++ te.id :: tlIds rest).Nodup := by
        rw [← tlIds_cons, ← tlIds_append]
        exact Hnd
      have Hlt' : ∀ i ∈ tlIds done ++ te.id :: tlIds rest, i < nid := by
        rw [← tlIds_cons, ← tlIds_append]
        exact Hlt
      have hembed : ∀ i, i ∈ tlIds done ++ tlIds rest →
          i ∈ tlIds (done ++ te :: rest) := by
        intro i hi
        rw [tlIds_append, tlIds_cons]
        rcases List.mem_append.mp hi with h | h
        · exact List.mem_append_left _ h
        · exact List.mem_append_right _ (List.mem_cons_of_mem _ h)
      have hteid : te.id ∈ tlIds (done ++ te :: rest) := by
        rw [tlIds_append, tlIds_cons]
        exact List.mem_append_right _ (List.mem_cons_self _ _)
      have hro : (done ++ [te]) ++ rest = done ++ te :: rest := by simp
      rw [runTimers]
      rw [if_neg (show ¬(te.deleted = true) by simp [hte.2])]
      by_cases hskip : maxIdEx ≤ te.id
      · rw [if_pos hskip]
        obtain ⟨C1, C2, C3, C4, C5, C6, C7, C8, C9, C10⟩ :=
          IH (done ++ [te]) rest nid hlen' (by rw [hro]; exact Hrc)
            (by rw [hro]; exact Hnd) (by rw [hro]; exact Hlt)
        refine ⟨C1, C2, C3, C4, ?_, C6, ?_, C8, C9, ?_⟩
        · intro i hi
          rcases C5 i hi with h | h
          · exact Or.inl (by rw [← hro]; exact h)
          · exact Or.inr h
        · rw [tlIds_cons]
          exact C7.cons te.id
        · intro i hi
          obtain ⟨hmem, hnot⟩ := C10 i hi
          refine ⟨?_, hnot⟩
          rcases hmem with h | h
          · exact Or.inl (by rw [← hro]; exact h)
          · exact Or.inr h
      · rw [if_neg hskip]
        by_cases hdue : te.when ≤ now
        · rw [if_pos hdue]
          dsimp only
          generalize hA : applyAction te.timeProc now
            { te with refcount := te.refcount + 1 } done rest nid = a
          obtain ⟨A1, A2, A3, A4, A5, A6, A7, A8, A9, A10, A11, A12⟩ :=
            applyAction_spec hA Hrc2 Hnd' Hlt'
          obtain ⟨AevN, AevF⟩ := evs_finIds_nodup (applyAction_evs hA)
          have hcid : a.cur.id = te.id := A5
          have hcrc : a.cur.refcount = te.refcount + 1 := A6
          have hcfin : a.cur.finalizerProc = te.finalizerProc := A7
          have hlen2 : a.rest.length ≤ fuel := Nat.le_trans A9 hlen'
          have Hnd3 : (tlIds (a.done ++ a.rest)).Nodup := by
            rw [tlIds_append]
            exact A2.sublist
              (List.Sublist.append_left ((List.Sublist.refl _).cons _) _)
          have Hlt3 : ∀ i ∈ tlIds (a.done ++ a.rest), i < a.nextId := by
            intro i hi
            rw [tlIds_append] at hi
            rcases List.mem_append.mp hi with h | h
            · exact A3 i (List.mem_append_left _ h)
            · exact A3 i
                (List.mem_append_right _ (List.mem_cons_of_mem _ h))
          have hanotin : te.id ∉ tlIds a.done ++ tlIds a.rest := by
            have hsp := nodup_split3 A2
            intro hmem
            rcases List.mem_append.mp hmem with h | h
            · exact hsp.2.2.1 (hcid ▸ h)
            · exact hsp.2.2.2.1 (hcid ▸ h)
          have hteltnid : te.id < nid :=
            Hlt' te.id (List.mem_append_right _ (List.mem_cons_self _ _))
          by_cases hreap : (({ a.cur with refcount := a.cur.refcount - 1
              } : aeTimeEvent).deleted || decide (a.retval < 0)) = true
          · rw [if_pos hreap]
            dsimp only
            obtain ⟨C1, C2, C3, C4, C5, C6, C7, C8, C9, C10⟩ :=
              IH a.done a.rest a.nextId hlen2 A1 Hnd3 Hlt3
            have htr :
                firedIds (TEvt.fired te.id te.when ::
                  ((a.evs ++ (match a.cur.finalizerProc with
                    | some f => [TEvt.finalized a.cur.id f]
                    | none => [])) ++
                  (runTimers now maxIdEx fuel a.done a.rest a.nextId).2.2)) =
                te.id :: firedIds
                  (runTimers now maxIdEx fuel a.done a.rest a.nextId).2.2 := by
              rw [firedIds_cons_fired, firedIds_append, firedIds_append, A10,
                finIds_match_fin]
              simp
            have hfinr :
                finIds (TEvt.fired te.id te.when ::
                  ((a.evs ++ (match a.cur.finalizerProc with
                    | some f => [TEvt.finalized a.cur.id f]
                    | none => [])) ++
                  (runTimers now maxIdEx fuel a.done a.rest a.nextId).2.2)) =
                (finIds a.evs ++ (match a.cur.finalizerProc with
                    | some _ => [a.cur.id]
                    | none => [])) ++
                  finIds (runTimers now maxIdEx fuel a.done a.rest a.nextId).2.2 := by
              rw [finIds_cons_fired, finIds_append, finIds_append, finIds_fevs]
            have hevsabs : ∀ i ∈ finIds a.evs,
                i ∉ finIds (runTimers now maxIdEx fuel a.done a.rest a.nextId).2.2 := by
              intro i hi hmem
              obtain ⟨h1, h2, h3, h4⟩ := A12 i hi
              rcases (C10 i hmem).1 with h | h
              · rw [tlIds_append] at h
                exact h4 h
              · omega
            have hfevabs : te.id ∉
                finIds (runTimers now maxIdEx fuel a.done a.rest a.nextId).2.2 := by
              intro hmem
              rcases (C10 te.id hmem).1 with h | h
              · rw [tlIds_append] at h
                exact hanotin h
              · omega
            have hevsout : ∀ i ∈ finIds a.evs,
                i ∉ tlIds (runTimers now maxIdEx fuel a.done a.rest a.nextId).1 := by
              intro i hi hmem
              obtain ⟨h1, h2, h3, h4⟩ := A12 i hi
              rcases C5 i hmem with h | h
              · rw [tlIds_append] at h
                exact h4 h
              · omega
            have hfevout : te.id ∉
                tlIds (runTimers now maxIdEx fuel a.done a.rest a.nextId).1 := by
              intro hmem
              rcases C5 te.id hmem with h | h
              · rw [tlIds_append] at h
                exact hanotin h
              · omega
            refine ⟨C1, C2, C3, Nat.le_trans A4 C4, ?_, ?_, ?_, ?_, ?_, ?_⟩
            · intro i hi
              rcases C5 i hi with h | h
              · rw [tlIds_append] at h
                rcases A11 i h with h3 | h3
                · exact Or.inl (hembed i h3)
                · exact Or.inr h3
              · exact Or.inr (Nat.le_trans A4 h)
            · intro i w h
              rcases List.mem_cons.mp h with h1 | h1
              · have := TEvt.fired.injEq i w te.id te.when ▸ h1
                simp only [TEvt.fired.injEq] at h1
                rw [h1.2]
                exact hdue
              · rcases List.mem_append.mp h1 with h2 | h2
                · rcases List.mem_append.mp h2 with h3 | h3
                  · exact absurd h3 (AevF i w)
                  · exact absurd h3 (fired_not_mem_fevs i w a.cur.id
                      a.cur.finalizerProc)
                · exact C6 i w h2
            · rw [htr, tlIds_cons]
              exact (C7.trans A8).cons₂ te.id
            · intro i hi
              rw [htr] at hi
              rcases List.mem_cons.mp hi with h1 | h1
              · omega
              · exact C8 i h1
            · rw [hfinr]
              refine nodup_append_of (nodup_append_of AevN ?_ ?_) C9 ?_
              · cases a.cur.finalizerProc <;> simp
              · intro i hi
                obtain ⟨h1, h2, h3, h4⟩ := A12 i hi
                intro hmem
                cases hf : a.cur.finalizerProc with
                | none =>
                  rw [hf] at hmem
                  exact absurd hmem (List.not_mem_nil _)
                | some f =>
                  rw [hf] at hmem
                  have : i = a.cur.id := by simpa using hmem
                  exact h3 (by rw [this]; exact hcid)
              · intro i hi
                rcases List.mem_append.mp hi with h1 | h1
                · exact hevsabs i h1
                · cases hf : a.cur.finalizerProc with
                  | none =>
                    rw [hf] at h1
                    exact absurd h1 (List.not_mem_nil _)
                  | some f =>
                    rw [hf] at h1
                    have : i = a.cur.id := by simpa using h1
                    rw [this, hcid]
                    exact hfevabs
            · intro i hi
              rw [hfinr] at hi
              rcases List.mem_append.mp hi with h1 | h1
              · rcases List.mem_append.mp h1 with h2 | h2
                · obtain ⟨h3, h4, h5, h6⟩ := A12 i h2
                  exact ⟨Or.inl (hembed i h3), hevsout i h2⟩
                · cases hf : a.cur.finalizerProc with
                  | none =>
                    rw [hf] at h2
                    exact absurd h2 (List.not_mem_nil _)
                  | some f =>
                    rw [hf] at h2
                    have : i = a.cur.id := by simpa using h2
                    rw [this, hcid]
                    exact ⟨Or.inl hteid, hfevout⟩
              · obtain ⟨h2, h3⟩ := C10 i h1
                refine ⟨?_, h3⟩
                rcases h2 with h4 | h4
                · rw [tlIds_append] at h4
                  rcases A11 i h4 with h5 | h5
                  · exact Or.inl (hembed i h5)
                  · exact Or.inr h5
                · exact Or.inr (Nat.le_trans A4 h4)
          · rw [if_neg hreap]
            dsimp only
            simp only [Bool.or_eq_true, decide_eq_true_eq, not_or,
              Bool.not_eq_true] at hreap
            have hcur2rc : ({ { a.cur with refcount := a.cur.refcount - 1 }
                with when := now + a.retval.toNat } : aeTimeEvent).refcount = 0 := by
              dsimp only
              rw [hcrc, hte.1]
            have hcur2del : ({ { a.cur with refcount := a.cur.refcount - 1 }
                with when := now + a.retval.toNat } : aeTimeEvent).deleted = false := by
              dsimp only
              exact hreap.1
            have hids2 : tlIds ((a.done ++ [{ { a.cur with
                refcount := a.cur.refcount - 1 }
                with when := now + a.retval.toNat }]) ++ a.rest) =
                tlIds a.done ++ a.cur.id :: tlIds a.rest := by
              simp [tlIds_append, tlIds]
            obtain ⟨C1, C2, C3, C4, C5, C6, C7, C8, C9, C10⟩ :=
              IH (a.done ++ [{ { a.cur with refcount := a.cur.refcount - 1 }
                with when := now + a.retval.toNat }]) a.rest a.nextId hlen2
                (by
                  intro e he
                  rw [List.append_assoc] at he
                  rcases List.mem_append.mp he with h1 | h1
                  · exact A1 e (List.mem_append_left _ h1)
                  · rcases List.mem_cons.mp h1 with h2 | h2
                    · rw [h2]
                      exact ⟨hcur2rc, hcur2del⟩
                    · exact A1 e (List.mem_append_right _ h2))
                (by rw [hids2]; exact A2)
                (by rw [hids2]; exact A3)
            have htr :
                firedIds (TEvt.fired te.id te.when :: (a.evs ++
                  (runTimers now maxIdEx fuel (a.done ++
                    [{ { a.cur with refcount := a.cur.refcount - 1 }
                      with when := now + a.retval.toNat }]) a.rest a.nextId).2.2)) =
                te.id :: firedIds (runTimers now maxIdEx fuel (a.done ++
                    [{ { a.cur with refcount := a.cur.refcount - 1 }
                      with when := now + a.retval.toNat }]) a.rest a.nextId).2.2 := by
              rw [firedIds_cons_fired, firedIds_append, A10]
              simp
            have hfinr :
                finIds (TEvt.fired te.id te.when :: (a.evs ++
                  (runTimers now maxIdEx fuel (a.done ++
                    [{ { a.cur with refcount := a.cur.refcount - 1 }
                      with when := now + a.retval.toNat }]) a.rest a.nextId).2.2)) =
                finIds a.evs ++
                  finIds (runTimers now maxIdEx fuel (a.done ++
                    [{ { a.cur with refcount := a.cur.refcount - 1 }
                      with when := now + a.retval.toNat }]) a.rest a.nextId).2.2 := by
              rw [finIds_cons_fired, finIds_append]
            have hsplitid : ∀ i, i ∈ tlIds ((a.done ++
                [{ { a.cur with refcount := a.cur.refcount - 1 }
                  with when := now + a.retval.toNat }]) ++ a.rest) →
                i = te.id ∨ i ∈ tlIds a.done ++ tlIds a.rest := by
              intro i hi
              rw [hids2] at hi
              rcases List.mem_append.mp hi with h | h
              · exact Or.inr (List.mem_append_left _ h)
              · rcases List.mem_cons.mp h with h1 | h1
                · exact Or.inl (hcid ▸ h1)
                · exact Or.inr (List.mem_append_right _ h1)
            have hevsabs : ∀ i ∈ finIds a.evs,
                i ∉ finIds (runTimers now maxIdEx fuel (a.done ++
                    [{ { a.cur with refcount := a.cur.refcount - 1 }
                      with when := now + a.retval.toNat }]) a.rest a.nextId).2.2 := by
              intro i hi hmem
              obtain ⟨h1, h2, h3, h4⟩ := A12 i hi
              rcases (C10 i hmem).1 with h | h
              · rcases hsplitid i h with h5 | h5
                · exact h3 (by rw [h5])
                · exact h4 h5
              · omega
            have hevsout : ∀ i ∈ finIds a.evs,
                i ∉ tlIds (runTimers now maxIdEx fuel (a.done ++
                    [{ { a.cur with refcount := a.cur.refcount - 1 }
                      with when := now + a.retval.toNat }]) a.rest a.nextId).1 := by
              intro i hi hmem
              obtain ⟨h1, h2, h3, h4⟩ := A12 i hi
              rcases C5 i hmem with h | h
              · rcases hsplitid i h with h5 | h5
                · exact h3 (by rw [h5])
                · exact h4 h5
              · omega
            refine ⟨C1, C2, C3, Nat.le_trans A4 C4, ?_, ?_, ?_, ?_, ?_, ?_⟩
            · intro i hi
              rcases C5 i hi with h | h
              · rcases hsplitid i h with h1 | h1
                · rw [h1]
                  exact Or.inl hteid
                · rcases A11 i h1 with h2 | h2
                  · exact Or.inl (hembed i h2)
                  · exact Or.inr h2
              · exact Or.inr (Nat.le_trans A4 h)
            · intro i w h
              rcases List.mem_cons.mp h with h1 | h1
              · simp only [TEvt.fired.injEq] at h1
                rw [h1.2]
                exact hdue
              · rcases List.mem_append.mp h1 with h2 | h2
                · exact absurd h2 (AevF i w)
                · exact C6 i w h2
            · rw [htr, tlIds_cons]
              exact (C7.trans A8).cons₂ te.id
            · intro i hi
              rw [htr] at hi
              rcases List.mem_cons.mp hi with h1 | h1
              · omega
              · exact C8 i h1
            · rw [hfinr]
              exact nodup_append_of AevN C9 hevsabs
            · intro i hi
              rw [hfinr] at hi
              rcases List.mem_append.mp hi with h1 | h1
              · obtain ⟨h2, h3, h4, h5⟩ := A12 i h1
                exact ⟨Or.inl (hembed i h2), hevsout i h1⟩
              · obtain ⟨h2, h3⟩ := C10 i h1
                refine ⟨?_, h3⟩
                rcases h2 with h4 | h4
                · rcases hsplitid i h4 with h5 | h5
                  · rw [h5]
                    exact Or.inl hteid
                  · rcases A11 i h5 with h6 | h6
                    · exact Or.inl (hembed i h6)
                    · exact Or.inr h6
                · exact Or.inr (Nat.le_trans A4 h4)
        · rw [if_neg hdue]
          obtain ⟨C1, C2, C3, C4, C5, C6, C7, C8, C9, C10⟩ :=
            IH (done ++ [te]) rest nid hlen' (by rw [hro]; exact Hrc)
              (by rw [hro]; exact Hnd) (by rw [hro]; exact Hlt)
          refine ⟨C1, C2, C3, C4, ?_, C6, ?_, C8, C9, ?_⟩
          · intro i hi
            rcases C5 i hi with h | h
            · exact Or.inl (by rw [← hro]; exact h)
            · exact Or.inr h
          · rw [tlIds_cons]
            exact C7.cons te.id
          · intro i hi
            obtain ⟨hmem, hnot⟩ := C10 i hi
            refine ⟨?_, hnot⟩
            rcases hmem with h | h
            · exact Or.inl (by rw [← hro]; exact h)
            · exact Or.inr h

lemma applyAction_rest_fate {act : TimerAction} {now : Nat} {cur : aeTimeEvent}
    {done rest : List aeTimeEvent} {nid : Nat} {r : VisitResult}
    (hr : applyAction act now cur done rest nid = r)
    (Hrc : ∀ e ∈ rest, e.refcount = 0)
    {te : aeTimeEvent} (hte : te ∈ rest) :
    te ∈ r.rest ∨
    (∀ f, te.finalizerProc = some f → TEvt.finalized te.id f ∈ r.evs) := by
  cases act with
  | ret v =>
    rw [applyAction] at hr
    subst hr
    exact Or.inl hte
  | schedThen delay a2 fin2 v =>
    rw [applyAction] at hr
    subst hr
    exact Or.inl hte
  | cancelThen tid v =>
    rw [applyAction] at hr
    cases hdone : cancelScan done tid with
    | some p =>
      rw [hdone] at hr
      subst hr
      exact Or.inl hte
    | none =>
      rw [hdone] at hr
      by_cases hcur : cur.id = tid ∧ cur.deleted = false
      · rw [if_pos hcur] at hr
        subst hr
        exact Or.inl hte
      · rw [if_neg hcur] at hr
        cases hrest : cancelScan rest tid with
        | some p =>
          rw [hrest] at hr
          subst hr
          dsimp only
          obtain ⟨pre, e, post, hdn, hdn', heid, hedel, hevs⟩ :=
            cancelScan_zero Hrc p.1 p.2 (by rw [hrest])
          rw [hdn] at hte
          rcases List.mem_append.mp hte with h1 | h1
          · exact Or.inl (by rw [hdn']; exact List.mem_append_left _ h1)
          · rcases List.mem_cons.mp h1 with h2 | h2
            · subst h2
              refine Or.inr ?_
              intro f hf
              rw [hevs, hf]
              exact List.mem_singleton.mpr rfl
            · exact Or.inl (by rw [hdn']; exact List.mem_append_right _ h2)
        | none =>
          rw [hrest] at hr
          subst hr
          exact Or.inl hte

lemma runTimers_selfcancel (now maxIdEx : Nat) :
    ∀ (fuel : Nat) (done rest : List aeTimeEvent) (nid : Nat),
      rest.length ≤ fuel →
      (∀ e ∈ done ++ rest, e.refcount = 0 ∧ e.deleted = false) →
      (tlIds (done ++ rest)).Nodup →
      (∀ i ∈ tlIds (done ++ rest), i < nid) →
      ∀ te ∈ rest, ∀ v : Int, ∀ f : Nat,
        te.timeProc = TimerAction.cancelThen te.id v →
        te.when ≤ now → te.id < maxIdEx → te.finalizerProc = some f →
        TEvt.finalized te.id f ∈ (runTimers now maxIdEx fuel done rest nid).2.2 := by
  intro fuel
  induction fuel with
  | zero =>
    intro done rest nid hlen _ _ _ te hte _ _ _ _ _ _
    cases rest with
    | nil => exact absurd hte (List.not_mem_nil te)
    | cons a b => simp at hlen
  | succ fuel IH =>
    intro done rest nid hlen Hrc Hnd Hlt te hte v f htp hdue2 hidlt hf
    cases rest with
    | nil => exact absurd hte (List.not_mem_nil te)
    | cons hd tail =>
      have hte0 := Hrc hd (List.mem_append_right done (List.mem_cons_self hd tail))
      have hlen' : tail.length ≤ fuel := by
        simp only [List.length_cons] at hlen
        omega
      have Hrc2 : ∀ e ∈ done ++ tail, e.refcount = 0 ∧ e.deleted = false := by
        intro e he
        rcases List.mem_append.mp he with h1 | h1
        · exact Hrc e (List.mem_append_left _ h1)
        · exact Hrc e (List.mem_append_right _ (List.mem_cons_of_mem hd h1))
      have Hnd' : (tlIds done ++ hd.id :: tlIds tail).Nodup := by
        rw [← tlIds_cons, ← tlIds_append]
        exact Hnd
      have Hlt' : ∀ i ∈ tlIds done ++ hd.id :: tlIds tail, i < nid := by
        rw [← tlIds_cons, ← tlIds_append]
        exact Hlt
      have hro : (done ++ [hd]) ++ tail = done ++ hd :: tail := by simp
      rw [runTimers]
      rw [if_neg (show ¬(hd.deleted = true) by simp [hte0.2])]
      by_cases hskip : maxIdEx ≤ hd.id
      · rw [if_pos hskip]
        rcases List.mem_cons.mp hte with h1 | h1
        · exact absurd hidlt (by rw [h1]; omega)
        · exact IH (done ++ [hd]) tail nid hlen' (by rw [hro]; exact Hrc)
            (by rw [hro]; exact Hnd) (by rw [hro]; exact Hlt)
            te h1 v f htp hdue2 hidlt hf
      · rw [if_neg hskip]
        by_cases hdue : hd.when ≤ now
        · rw [if_pos hdue]
          dsimp only
          rcases List.mem_cons.mp hte with h1 | h1
          · subst h1
            rw [htp]
            have hscan : cancelScan done te.id = none := by
              rw [cancelScan_none]
              intro e he hc
              have : te.id ∈ tlIds done := by
                rw [← hc.1]
                exact List.mem_map_of_mem _ he
              exact (nodup_split3 Hnd').2.2.1 this
            rw [applyAction, hscan]
            rw [if_pos (⟨rfl, hte0.2⟩ :
              ({ te with refcount := te.refcount + 1 } : aeTimeEvent).id = te.id ∧
              ({ te with refcount := te.refcount + 1 } : aeTimeEvent).deleted = false)]
            dsimp only
            rw [if_pos (by simp : (true || decide (v < 0)) = true)]
            dsimp only
            rw [hf]
            exact List.mem_cons_of_mem _ (List.mem_append_left _
              (List.mem_append_right _ (List.mem_singleton.mpr rfl)))
          · generalize hA : applyAction hd.timeProc now
              { hd with refcount := hd.refcount + 1 } done tail nid = a
            obtain ⟨A1, A2, A3, A4, A5, A6, A7, A8, A9, A10, A11, A12⟩ :=
              applyAction_spec hA Hrc2 Hnd' Hlt'
            have hcid : a.cur.id = hd.id := A5
            have hcrc : a.cur.refcount = hd.refcount + 1 := A6
            have hlen2 : a.rest.length ≤ fuel := Nat.le_trans A9 hlen'
            have Hnd3 : (tlIds (a.done ++ a.rest)).Nodup := by
              rw [tlIds_append]
              exact A2.sublist
                (List.Sublist.append_left ((List.Sublist.refl _).cons _) _)
            have Hlt3 : ∀ i ∈ tlIds (a.done ++ a.rest), i < a.nextId := by
              intro i hi
              rw [tlIds_append] at hi
              rcases List.mem_append.mp hi with h | h
              · exact A3 i (List.mem_append_left _ h)
              · exact A3 i
                  (List.mem_append_right _ (List.mem_cons_of_mem _ h))
            rcases applyAction_rest_fate hA
              (fun e he => (Hrc2 e (List.mem_append_right done he)).1) h1 with
              hsurv | hfin
            · by_cases hreap : (({ a.cur with refcount := a.cur.refcount - 1
                  } : aeTimeEvent).deleted || decide (a.retval < 0)) = true
              · rw [if_pos hreap]
                dsimp only
                exact List.mem_cons_of_mem _ (List.mem_append_right _
                  (IH a.done a.rest a.nextId hlen2 A1 Hnd3 Hlt3
                    te hsurv v f htp hdue2 hidlt hf))
              · rw [if_neg hreap]
                dsimp only
                simp only [Bool.or_eq_true, decide_eq_true_eq, not_or,
                  Bool.not_eq_true] at hreap
                have hcur2rc : ({ { a.cur with refcount := a.cur.refcount - 1 }
                    with when := now + a.retval.toNat } : aeTimeEvent).refcount = 0 := by
                  dsimp only
                  rw [hcrc, hte0.1]
                have hcur2del : ({ { a.cur with refcount := a.cur.refcount - 1 }
                    with when := now + a.retval.toNat } : aeTimeEvent).deleted = false := by
                  dsimp only
                  exact hreap.1
                have hids2 : tlIds ((a.done ++ [{ { a.cur with
                    refcount := a.cur.refcount - 1 }
                    with when := now + a.retval.toNat }]) ++ a.rest) =
                    tlIds a.done ++ a.cur.id :: tlIds a.rest := by
                  simp [tlIds_append, tlIds]
                refine List.mem_cons_of_mem _ (List.mem_append_right _
                  (IH (a.done ++ [{ { a.cur with refcount := a.cur.refcount - 1 }
                    with when := now + a.retval.toNat }]) a.rest a.nextId hlen2
                    ?_ (by rw [hids2]; exact A2) (by rw [hids2]; exact A3)
                    te hsurv v f htp hdue2 hidlt hf))
                intro e he
                rw [List.append_assoc] at he
                rcases List.mem_append.mp he with h2 | h2
                · exact A1 e (List.mem_append_left _ h2)
                · rcases List.mem_cons.mp h2 with h3 | h3
                  · rw [h3]
                    exact ⟨hcur2rc, hcur2del⟩
                  · exact A1 e (List.mem_append_right _ h3)
            · have hin := hfin f hf
              by_cases hreap : (({ a.cur with refcount := a.cur.refcount - 1
                  } : aeTimeEvent).deleted || decide (a.retval < 0)) = true
              · rw [if_pos hreap]
                dsimp only
                exact List.mem_cons_of_mem _ (List.mem_append_left _
                  (List.mem_append_left _ hin))
              · rw [if_neg hreap]
                dsimp only
                exact List.mem_cons_of_mem _ (List.mem_append_left _ hin)
        · rw [if_neg hdue]
          rcases List.mem_cons.mp hte with h1 | h1
          · exact absurd (by rw [← h1]; exact hdue2) hdue
          · exact IH (done ++ [hd]) tail nid hlen' (by rw [hro]; exact Hrc)
              (by rw [hro]; exact Hnd) (by rw [hro]; exact Hlt)
              te h1 v f htp hdue2 hidlt hf

lemma processTimeEvents_eq (l : aeEventLoop) (now : Nat) :
    processTimeEvents l now =
      ({ l with
          timeEventHead := (runTimers now l.timeEventNextId
            l.timeEventHead.length [] l.timeEventHead l.timeEventNextId).1
          timeEventNextId := (runTimers now l.timeEventNextId
            l.timeEventHead.length [] l.timeEventHead l.timeEventNextId).2.1 },
        (runTimers now l.timeEventNextId
          l.timeEventHead.length [] l.timeEventHead l.timeEventNextId).2.2) := rfl

lemma processTimeEvents_spec (l : aeEventLoop) (now : Nat) (h : timerWF l) :
    timerWF (processTimeEvents l now).1 ∧
    l.timeEventNextId ≤ (processTimeEvents l now).1.timeEventNextId ∧
    (∀ i w, TEvt.fired i w ∈ (processTimeEvents l now).2 → w ≤ now) ∧
    (firedIds (processTimeEvents l now).2).Nodup ∧
    List.Sublist (firedIds (processTimeEvents l now).2) (tlIds l.timeEventHead) ∧
    (∀ i ∈ firedIds (processTimeEvents l now).2, i < l.timeEventNextId) ∧
    (finIds (processTimeEvents l now).2).Nodup ∧
    (∀ i ∈ finIds (processTimeEvents l now).2,
      i ∉ tlIds (processTimeEvents l now).1.timeEventHead) := by
  obtain ⟨hnd, hmem⟩ := h
  have hpre : (tlIds (([] : List aeTimeEvent) ++ l.timeEventHead)).Nodup := by
    rw [List.nil_append]
    exact hnd
  have hpre2 : ∀ e ∈ ([] : List aeTimeEvent) ++ l.timeEventHead,
      e.refcount = 0 ∧ e.deleted = false := by
    rw [List.nil_append]
    exact fun e he => ⟨(hmem e he).2.1, (hmem e he).2.2⟩
  have hpre3 : ∀ i ∈ tlIds (([] : List aeTimeEvent) ++ l.timeEventHead),
      i < l.timeEventNextId := by
    rw [List.nil_append]
    intro i hi
    obtain ⟨e, he, heq⟩ := List.mem_map.mp hi
    exact heq ▸ (hmem e he).1
  obtain ⟨C1, C2, C3, C4, C5, C6, C7, C8, C9, C10⟩ :=
    runTimers_spec now l.timeEventNextId l.timeEventHead.length
      [] l.timeEventHead l.timeEventNextId (Nat.le_refl _) hpre2 hpre hpre3
  rw [processTimeEvents_eq]
  dsimp only
  refine ⟨⟨C2, ?_⟩, C4, C6, hnd.sublist C7, C7, C8, C9,
    fun i hi => (C10 i hi).2⟩
  intro te hte
  exact ⟨C3 te.id (List.mem_map_of_mem _ hte), (C1 te hte).1, (C1 te hte).2⟩

lemma reachable_timerWF : ∀ {l : aeEventLoop}, Reachable l → timerWF l := by
  intro l h
  induction h with
  | init n =>
    exact ⟨by simp [tlIds, aeCreateEventLoop], by simp [aeCreateEventLoop]⟩
  | sched now ms act fin data hR ih =>
    obtain ⟨hnd, hmem⟩ := ih
    rw [timerWF]
    dsimp only [aeCreateTimeEvent]
    constructor
    · rw [tlIds_cons, List.nodup_cons]
      refine ⟨?_, hnd⟩
      intro hin
      obtain ⟨e, he, heq⟩ := List.mem_map.mp hin
      exact absurd (heq ▸ (hmem e he).1) (by dsimp only; omega)
    · intro te hte
      rcases List.mem_cons.mp hte with h1 | h1
      · rw [h1]
        exact ⟨by dsimp only; omega, rfl, rfl⟩
      · have := hmem te h1
        exact ⟨by omega, this.2.1, this.2.2⟩
  | cancel hR hok ih =>
    rename_i l0 l' id evs
    obtain ⟨hnd, hmem⟩ := ih
    rw [aeDeleteTimeEvent] at hok
    cases hscan : cancelScan l0.timeEventHead id with
    | none =>
      rw [hscan] at hok
      exact absurd hok (by simp)
    | some p =>
      rw [hscan] at hok
      simp only [Except.ok.injEq, Prod.mk.injEq] at hok
      obtain ⟨pre, e, post, hdn, hdn', _, _, _⟩ :=
        cancelScan_zero (fun e he => (hmem e he).2.1)
          p.1 p.2 (by rw [hscan])
      rw [← hok.1]
      constructor
      · show (tlIds p.1).Nodup
        refine hnd.sublist ?_
        rw [hdn, hdn', tlIds_append, tlIds_append, tlIds_cons]
        exact List.Sublist.append_left ((List.Sublist.refl _).cons _) _
      · intro te hte
        refine hmem te ?_
        rw [hdn]
        rw [hdn'] at hte
        rcases List.mem_append.mp hte with h1 | h1
        · exact List.mem_append_left _ h1
        · exact List.mem_append_right _ (List.mem_cons_of_mem e h1)
  | timers now hR ih =>
    exact (processTimeEvents_spec _ now ih).1
  | fileReg hR hok ih =>
    rename_i l0 l' fd m proc data
    rw [aeCreateFileEvent] at hok
    by_cases hfd : fd < l0.events.length
    · rw [dif_pos hfd] at hok
      simp only [Except.ok.injEq] at hok
      rw [← hok]
      exact ih
    · rw [dif_neg hfd] at hok
      exact absurd hok (by simp)
  | fileDel fd m hR ih =>
    rename_i l0
    rw [aeDeleteFileEvent]
    by_cases hfd : fd < l0.events.length
    · rw [dif_pos hfd]
      by_cases hz : (l0.events.get ⟨fd, hfd⟩).mask = AE_NONE
      · rw [if_pos hz]
        exact ih
      · rw [if_neg hz]
        exact ih
    · rw [dif_neg hfd]
      exact ih
  | resize hR hok ih =>
    rename_i l0 l' n
    rw [aeResizeSetSize] at hok
    by_cases hc : ((l0.events.drop n).any (fun fe => fe.mask ≠ AE_NONE)) = true
    · rw [if_pos hc] at hok
      exact absurd hok (by simp)
    · rw [if_neg hc] at hok
      simp only [Except.ok.injEq] at hok
      rw [← hok]
      exact ih

/-! ## C5: single now per pass, no same-pass re-fire -/

/-- C5: within one time-event dispatch pass, every fired callback belonged
to an entry whose due time had elapsed relative to the single now sampled
at the start of the pass; each timer id fires at most once in the pass,
so a timer scheduled or rescheduled with delay zero during the pass never
fires twice within it; and only timers created before the pass began
(id below the timeEventNextId sampled at pass start) fire at all. -/
theorem c5_single_now_pass (l : aeEventLoop) (now : Nat) (h : timerWF l) :
    (∀ i w, TEvt.fired i w ∈ (processTimeEvents l now).2 → w ≤ now) ∧
    (firedIds (processTimeEvents l now).2).Nodup ∧
    (∀ i ∈ firedIds (processTimeEvents l now).2, i < l.timeEventNextId) := by
  obtain ⟨_, _, C3, C4, _, C6, _, _⟩ := processTimeEvents_spec l now h
  exact ⟨C3, C4, C6⟩

/-- Witness for C5: one timer due at now that reschedules itself with
delay zero. -/
theorem c5_single_now_pass_witness :
    (∀ i w, TEvt.fired i w ∈ (processTimeEvents
      (aeCreateTimeEvent (aeCreateEventLoop 0) 5 0
        (TimerAction.ret 0) none 0).2 5).2 → w ≤ 5) ∧
    (firedIds (processTimeEvents
      (aeCreateTimeEvent (aeCreateEventLoop 0) 5 0
        (TimerAction.ret 0) none 0).2 5).2).Nodup ∧
    (∀ i ∈ firedIds (processTimeEvents
      (aeCreateTimeEvent (aeCreateEventLoop 0) 5 0
        (TimerAction.ret 0) none 0).2 5).2,
      i < (aeCreateTimeEvent (aeCreateEventLoop 0) 5 0
        (TimerAction.ret 0) none 0).2.timeEventNextId) :=
  c5_single_now_pass
    (aeCreateTimeEvent (aeCreateEventLoop 0) 5 0 (TimerAction.ret 0) none 0).2
    5 ⟨by decide, by decide⟩

/-! ## C6: strictly increasing, never reused timer ids -/

/-- C6: in every reachable loop state the scheduled timer ids are pairwise
distinct and all below the timeEventNextId counter; scheduling returns the
current counter value as the new id and increments the counter, so ids
handed out by successive schedule calls are strictly increasing and never
reused. -/
theorem c6_ids_monotonic (l : aeEventLoop) (h : Reachable l)
    (now ms now2 ms2 : Nat) (act act2 : TimerAction) (fin fin2 : Option Nat)
    (data data2 : Nat) :
    ((tlIds l.timeEventHead).Nodup ∧
      (∀ te ∈ l.timeEventHead, te.id < l.timeEventNextId)) ∧
    (aeCreateTimeEvent l now ms act fin data).1 = l.timeEventNextId ∧
    (aeCreateTimeEvent l now ms act fin data).2.timeEventNextId =
      l.timeEventNextId + 1 ∧
    (aeCreateTimeEvent l now ms act fin data).1 <
      (aeCreateTimeEvent (aeCreateTimeEvent l now ms act fin data).2
        now2 ms2 act2 fin2 data2).1 := by
  obtain ⟨hnd, hmem⟩ := reachable_timerWF h
  refine ⟨⟨hnd, fun te hte => (hmem te hte).1⟩, rfl, rfl, ?_⟩
  dsimp only [aeCreateTimeEvent]
  omega

/-- Witness for C6: a freshly created loop with two schedule calls. -/
theorem c6_ids_monotonic_witness :
    ((tlIds (aeCreateEventLoop 2).timeEventHead).Nodup ∧
      (∀ te ∈ (aeCreateEventLoop 2).timeEventHead,
        te.id < (aeCreateEventLoop 2).timeEventNextId)) ∧
    (aeCreateTimeEvent (aeCreateEventLoop 2) 0 10
      (TimerAction.ret (-1)) none 0).1 = (aeCreateEventLoop 2).timeEventNextId ∧
    (aeCreateTimeEvent (aeCreateEventLoop 2) 0 10
      (TimerAction.ret (-1)) none 0).2.timeEventNextId =
      (aeCreateEventLoop 2).timeEventNextId + 1 ∧
    (aeCreateTimeEvent (aeCreateEventLoop 2) 0 10
      (TimerAction.ret (-1)) none 0).1 <
      (aeCreateTimeEvent (aeCreateTimeEvent (aeCreateEventLoop 2) 0 10
        (TimerAction.ret (-1)) none 0).2 3 20
        (TimerAction.ret (-1)) none 1).1 :=
  c6_ids_monotonic (aeCreateEventLoop 2) (Reachable.init 2) 0 10 3 20
    (TimerAction.ret (-1)) (TimerAction.ret (-1)) none none 0 1

/-! ## C4: cancel semantics and exactly-once finalization -/

/-- C4: cancelling by id fails with NotFound exactly when no live entry
has that id; when a live entry exists in a well-formed loop outside a
dispatch pass (its refcount is zero) the entry is unlinked immediately and
its finalizer fires exactly once; and a timer whose callback cancels its
own id during a pass (its refcount is nonzero at cancel time, so removal
is lazy) is finalized exactly once, at the end of its visit, never
twice. -/
theorem c4_cancel_exactly_once (l : aeEventLoop) (id : Nat) :
    (aeDeleteTimeEvent l id = .error .NotFound ↔
      ∀ te ∈ l.timeEventHead, ¬(te.id = id ∧ te.deleted = false)) ∧
    (∀ te ∈ l.timeEventHead, timerWF l → te.id = id →
      ∀ f, te.finalizerProc = some f →
      ∃ l', aeDeleteTimeEvent l id = .ok (l', [TEvt.finalized id f]) ∧
        id ∉ tlIds l'.timeEventHead) ∧
    (∀ now : Nat, timerWF l → ∀ te ∈ l.timeEventHead, ∀ v : Int, ∀ f : Nat,
      te.timeProc = TimerAction.cancelThen te.id v →
      te.when ≤ now → te.finalizerProc = some f →
      (finIds (processTimeEvents l now).2).count te.id = 1) := by
  refine ⟨?_, ?_, ?_⟩
  · rw [aeDeleteTimeEvent]
    cases hscan : cancelScan l.timeEventHead id with
    | none =>
      simp only []
      exact ⟨fun _ => cancelScan_none.mp hscan, fun _ => trivial⟩
    | some p =>
      simp only []
      constructor
      · intro h
        exact absurd h (by simp)
      · intro hall
        rw [cancelScan_none.mpr hall] at hscan
        exact absurd hscan (by simp)
  · intro te hte hwf hid f hf
    obtain ⟨hnd, hmem⟩ := hwf
    cases hscan : cancelScan l.timeEventHead id with
    | none =>
      exact absurd ⟨hid, (hmem te hte).2.2⟩ (cancelScan_none.mp hscan te hte)
    | some p =>
      obtain ⟨pre, e, post, hdn, hdn', heid, hedel, hevs⟩ :=
        cancelScan_zero (fun e he => (hmem e he).2.1)
          p.1 p.2 (by rw [hscan])
      have hnd2 : (tlIds pre ++ e.id :: tlIds post).Nodup := by
        rw [← tlIds_cons, ← tlIds_append, ← hdn]
        exact hnd
      have hsp := nodup_split3 hnd2
      have hete : te = e := by
        rw [hdn] at hte
        rcases List.mem_append.mp hte with h1 | h1
        · have h3 : te.id ∈ tlIds pre := List.mem_map_of_mem _ h1
          rw [hid, ← heid] at h3
          exact absurd h3 hsp.2.2.1
        · rcases List.mem_cons.mp h1 with h2 | h2
          · exact h2
          · have h3 : te.id ∈ tlIds post := List.mem_map_of_mem _ h2
            rw [hid, ← heid] at h3
            exact absurd h3 hsp.2.2.2.1
      refine ⟨{ l with timeEventHead := p.1 }, ?_, ?_⟩
      · rw [aeDeleteTimeEvent, hscan]
        have hevs2 : p.2 = [TEvt.finalized id f] := by
          rw [hevs, ← hete, hf, hid]
        show Except.ok ({ l with timeEventHead := p.1 }, p.2) = _
        rw [hevs2]
      · dsimp only
        rw [hdn', tlIds_append]
        intro hmem2
        rcases List.mem_append.mp hmem2 with h1 | h1
        · exact hsp.2.2.1 (by rw [heid]; exact h1)
        · exact hsp.2.2.2.1 (by rw [heid]; exact h1)
  · intro now hwf te hte v f htp hwhen hf
    obtain ⟨hnd, hmem⟩ := hwf
    have hpre : (tlIds (([] : List aeTimeEvent) ++ l.timeEventHead)).Nodup := by
      rw [List.nil_append]
      exact hnd
    have hpre2 : ∀ e ∈ ([] : List aeTimeEvent) ++ l.timeEventHead,
        e.refcount = 0 ∧ e.deleted = false := by
      rw [List.nil_append]
      exact fun e he => ⟨(hmem e he).2.1, (hmem e he).2.2⟩
    have hpre3 : ∀ i ∈ tlIds (([] : List aeTimeEvent) ++ l.timeEventHead),
        i < l.timeEventNextId := by
      rw [List.nil_append]
      intro i hi
      obtain ⟨e, he, heq⟩ := List.mem_map.mp hi
      exact heq ▸ (hmem e he).1
    have hmemf : TEvt.finalized te.id f ∈ (processTimeEvents l now).2 := by
      rw [processTimeEvents_eq]
      dsimp only
      exact runTimers_selfcancel now l.timeEventNextId l.timeEventHead.length
        [] l.timeEventHead l.timeEventNextId (Nat.le_refl _) hpre2 hpre hpre3
        te hte v f htp hwhen (hmem te hte).1 hf
    have hnodupf : (finIds (processTimeEvents l now).2).Nodup :=
      (processTimeEvents_spec l now ⟨hnd, hmem⟩).2.2.2.2.2.2.1
    exact List.count_eq_one_of_mem hnodupf (finalized_mem_finIds hmemf)

/-- Witness for C4: a loop with one timer whose callback cancels its own
id; the pass finalizes it exactly once, and direct cancellation of the
same timer finalizes it immediately. -/
theorem c4_cancel_exactly_once_witness :
    (∃ l', aeDeleteTimeEvent
      (aeCreateTimeEvent (aeCreateEventLoop 0) 0 0
        (TimerAction.cancelThen 0 100) (some 7) 0).2 0 =
        .ok (l', [TEvt.finalized 0 7]) ∧ 0 ∉ tlIds l'.timeEventHead) ∧
    (finIds (processTimeEvents
      (aeCreateTimeEvent (aeCreateEventLoop 0) 0 0
        (TimerAction.cancelThen 0 100) (some 7) 0).2 0).2).count 0 = 1 := by
  have h := c4_cancel_exactly_once
    (aeCreateTimeEvent (aeCreateEventLoop 0) 0 0
      (TimerAction.cancelThen 0 100) (some 7) 0).2 0
  exact ⟨h.2.1 (aeTimeEvent.mk 0 false 0 (TimerAction.cancelThen 0 100)
      (some 7) 0 0) (by decide) ⟨by decide, by decide⟩ rfl 7 rfl,
    h.2.2 0 ⟨by decide, by decide⟩ (aeTimeEvent.mk 0 false 0
      (TimerAction.cancelThen 0 100) (some 7) 0 0) (by decide) 100 7 rfl
      (by decide) rfl⟩
